import Mathlib

/-!
# UMBF container codec — verification of the block-stream format

Shallow embedding of the UMBF (Universal Model/Media Binary Format) codec:
the envelope (magic, packed header, checksum), the framed block stream with
its signature registry, and the per-block encoders/decoders, translated from
`src/umbf.cpp`, `src/stream.cpp` and `include/umbf/umbf.hpp`.

Bytes are modelled as natural numbers below 256; byte buffers as `List Nat`.
32-bit floats are carried by their bit patterns (the codec only ever copies
them), so `f32` fields are `Nat` values below `2^32`.
-/

namespace Umbf

/-! ## Primitive little-endian codec

Modelled from the spec: the `acul::bin_stream` primitive layer (§4.2) is an
external library; all integer encodings are little-endian, strings are a
`u32` length followed by raw bytes, and reading past the end of the buffer
throws (modelled as `Option.none`). -/

/-- Little-endian byte encoding: `w` bytes of the value `v` (mod `2^(8*w)`). -/
def leBytes : Nat → Nat → List Nat
  | 0, _ => []
  | w + 1, v => (v % 256) :: leBytes w (v / 256)

/-- Little-endian byte decoding: fold bytes back into a value. -/
def leVal : List Nat → Nat
  | [] => 0
  | b :: bs => b % 256 + 256 * leVal bs

theorem leBytes_length (w v : Nat) : (leBytes w v).length = w := by
  induction w generalizing v with
  | zero => rfl
  | succ k ih => simp [leBytes, ih]

theorem leVal_leBytes (w v : Nat) (h : v < 2 ^ (8 * w)) : leVal (leBytes w v) = v := by
  induction w generalizing v with
  | zero => simp at h; simp [leBytes, leVal, h]
  | succ k ih =>
    have h2 : v / 256 < 2 ^ (8 * k) := by
      rw [Nat.div_lt_iff_lt_mul (by norm_num)]
      calc v < 2 ^ (8 * (k + 1)) := h
        _ = 2 ^ (8 * k) * 256 := by ring
    simp only [leBytes, leVal, ih _ h2]
    omega

/-- A read stream: backing buffer plus a read cursor, mirroring `acul::bin_stream`. -/
structure RStream where
  data : List Nat
  pos : Nat
  deriving DecidableEq, Repr

/-- Read `n` raw bytes; fails (throws `TruncatedStream`) past the end. -/
def readBytes (n : Nat) (s : RStream) : Option (List Nat × RStream) :=
  if s.pos + n ≤ s.data.length then
    some ((s.data.drop s.pos).take n, ⟨s.data, s.pos + n⟩)
  else none

def readU8 (s : RStream) : Option (Nat × RStream) :=
  (readBytes 1 s).map fun (bs, s') => (leVal bs, s')

def readU16 (s : RStream) : Option (Nat × RStream) :=
  (readBytes 2 s).map fun (bs, s') => (leVal bs, s')

def readU32 (s : RStream) : Option (Nat × RStream) :=
  (readBytes 4 s).map fun (bs, s') => (leVal bs, s')

def readU64 (s : RStream) : Option (Nat × RStream) :=
  (readBytes 8 s).map fun (bs, s') => (leVal bs, s')

/-- `bin_stream::shift(n)`: advance the cursor without copying. -/
def shift (n : Nat) (s : RStream) : RStream := ⟨s.data, s.pos + n⟩

/-- Read a string: `u32` length then raw bytes (strings are byte lists). -/
def readString (s : RStream) : Option (List Nat × RStream) := do
  let (n, s) ← readU32 s
  readBytes n s

/-- Read `n` records with a fixed reader, in order. -/
def readN {α : Type} (rd : RStream → Option (α × RStream)) : Nat → RStream → Option (List α × RStream)
  | 0, s => some ([], s)
  | n + 1, s => do
    let (a, s) ← rd s
    let (as, s) ← readN rd n s
    pure (a :: as, s)

/-! ### Write side: plain byte-list producers chained like the C++ `.write(...)` calls. -/

def wU8 (v : Nat) (s : List Nat) : List Nat := s ++ leBytes 1 v
def wU16 (v : Nat) (s : List Nat) : List Nat := s ++ leBytes 2 v
def wU32 (v : Nat) (s : List Nat) : List Nat := s ++ leBytes 4 v
def wU64 (v : Nat) (s : List Nat) : List Nat := s ++ leBytes 8 v
def wBytes (bs : List Nat) (s : List Nat) : List Nat := s ++ bs
def wString (str : List Nat) (s : List Nat) : List Nat := s ++ leBytes 4 str.length ++ str

/-! ## Vectors of 32-bit floats (carried as bit patterns) -/

/-- A `glm::vec3` of `f32` values, each carried as its 32-bit pattern. -/
structure Vec3 where
  x : Nat
  y : Nat
  z : Nat
  deriving DecidableEq, Repr

/-- A `glm::vec2` of `f32` values, carried as bit patterns. -/
structure Vec2 where
  x : Nat
  y : Nat
  deriving DecidableEq, Repr

def wF32 (v : Nat) (s : List Nat) : List Nat := s ++ leBytes 4 v
def wVec2 (v : Vec2) (s : List Nat) : List Nat := s ++ leBytes 4 v.x ++ leBytes 4 v.y
def wVec3 (v : Vec3) (s : List Nat) : List Nat := s ++ leBytes 4 v.x ++ leBytes 4 v.y ++ leBytes 4 v.z

def readF32 (s : RStream) : Option (Nat × RStream) := readU32 s

def readVec2 (s : RStream) : Option (Vec2 × RStream) := do
  let (a, s) ← readU32 s
  let (b, s) ← readU32 s
  pure (⟨a, b⟩, s)

def readVec3 (s : RStream) : Option (Vec3 × RStream) := do
  let (a, s) ← readU32 s
  let (b, s) ← readU32 s
  let (c, s) ← readU32 s
  pure (⟨a, b, c⟩, s)

/-- Bit pattern of `1.0f`. -/
def oneF32 : Nat := 0x3F800000

/-- The `f32` comparison `v != 0.0f` on a bit pattern: every pattern except
`+0.0` (`0x00000000`) and `-0.0` (`0x80000000`) is nonzero (NaN compares
unordered, so `!=` also yields true for it). -/
def f32Nonzero (v : Nat) : Bool := decide (v % 2 ^ 32 ≠ 0 ∧ v % 2 ^ 32 ≠ 0x80000000)

/-! ## CRC-32

Modelled from the spec: `acul::crc32` is external; §6 fixes it as CRC-32 with
the reflected IEEE 802.3 polynomial `0xEDB88320` and seed 0. -/

/-- One bit step of the reflected CRC-32. -/
def crcBit (c : Nat) : Nat :=
  if c % 2 = 1 then Nat.xor (c / 2) 0xEDB88320 else c / 2

/-- Fold one byte into the running CRC. -/
def crcByte (c b : Nat) : Nat :=
  crcBit (crcBit (crcBit (crcBit (crcBit (crcBit (crcBit (crcBit (Nat.xor c (b % 256)))))))))

/-- `crc32(seed, bytes)`. -/
def crc32 (seed : Nat) (bs : List Nat) : Nat := bs.foldl crcByte seed

/-! ## Envelope: magic and packed header (`umbf.cpp` `pack_header`/`unpack_header`) -/

def UMBF_MAGIC : Nat := 0xCA9FB393

/-- The logical `File::Header`. -/
structure Header where
  vendor_sign : Nat
  vendor_version : Nat
  type_sign : Nat
  spec_version : Nat
  compressed : Bool
  deriving DecidableEq, Repr

/-- `pack_header` followed by the raw write of the 12-byte bit-field struct
`File::Header::Pack`: `vendor_sign:24, compressed:8, vendor_version:24,
type_sign_low:8, type_sign_high:8, spec_version:24`, little-endian. -/
def packHeaderBytes (h : Header) : List Nat :=
  leBytes 3 (h.vendor_sign % 2 ^ 24) ++ [if h.compressed then 1 else 0] ++
    leBytes 3 (h.vendor_version % 2 ^ 24) ++ [h.type_sign % 256, h.type_sign / 256 % 256] ++
    leBytes 3 (h.spec_version % 2 ^ 24)

/-- `unpack_header` applied to 12 raw bytes read back from the stream. -/
def unpackHeader (bs : List Nat) : Header :=
  { vendor_sign := leVal (bs.take 3)
    compressed := bs.getD 3 0 ≠ 0
    vendor_version := leVal ((bs.drop 4).take 3)
    type_sign := bs.getD 8 0 % 256 * 256 + bs.getD 7 0 % 256
    spec_version := leVal ((bs.drop 9).take 3) }

/-! ## Block framing (`bin_stream::write/read` over `vector<shared_ptr<umbf::Block>>`)

The registry (`umbf::streams::resolver`) maps a 32-bit signature to a
reader/writer pair; it is a parameter here, as its contents are set up by
client registration code. A reader returns `none` for a C++ exception,
`some (none, s)` for a decoder that returned a null block (warned and
dropped), and `some (some b, s)` on success, with `s` the stream exactly as
the decoder left it. -/

/-- A registered reader/writer pair (`acul::meta::stream`). -/
structure Codec (β : Type) where
  read : RStream → Option (Option β × RStream)
  write : β → List Nat

/-- The signature registry: `resolver->get_stream`. -/
def Registry (β : Type) : Type := Nat → Option (Codec β)

/-- `bin_stream::write(const vector<shared_ptr<umbf::Block>>&)`: for each block
with a registered signature emit `u64 block_size, u32 signature, payload`;
blocks with unregistered signatures are silently skipped; the list ends with
a `u64 0` terminator. -/
def writeBlocks {β : Type} (sigOf : β → Nat) (R : Registry β) (bs : List β) : List Nat :=
  (bs.foldl
    (fun acc b =>
      match R (sigOf b) with
      | some c => acc ++ leBytes 8 (c.write b).length ++ leBytes 4 (sigOf b) ++ c.write b
      | none => acc)
    []) ++ leBytes 8 0

/-- `bin_stream::read(vector<shared_ptr<umbf::Block>>&)`: the frame loop.
`fuel` bounds the iteration count (the C++ loop terminates because every
iteration advances the monotone cursor); the top-level entry point supplies
more fuel than any monotone run can use. Each arm mirrors the source: stop
when the cursor reached the end; read `u64 block_size` (throwing on
truncation); `0` terminates; read the `u32 signature`; unknown signatures
`shift(block_size)`; a registered decoder is run and the loop continues at
whatever position the decoder left — a null result only logs a warning. -/
def readBlocksFuel {β : Type} (R : Registry β) : Nat → RStream → Option (List β × RStream)
  | 0, _ => none
  | fuel + 1, s =>
    if s.pos < s.data.length then
      (readU64 s).bind fun p =>
        if p.1 = 0 then some ([], p.2)
        else
          (readU32 p.2).bind fun q =>
            match R q.1 with
            | none => readBlocksFuel R fuel (shift p.1 q.2)
            | some c =>
              (c.read q.2).bind fun r =>
                match r.1 with
                | none => readBlocksFuel R fuel r.2
                | some b => (readBlocksFuel R fuel r.2).map fun x => (b :: x.1, x.2)
    else some ([], s)

/-- Entry point with enough fuel for any monotone run. -/
def readBlocks {β : Type} (R : Registry β) (s : RStream) : Option (List β × RStream) :=
  readBlocksFuel R (s.data.length + 1) s

/-! ## File façade (`File::save` / `File::read_from_bytes`) -/

/-- The `umbf::File` value: header, ordered block list, checksum. -/
structure FileR (β : Type) where
  header : Header
  blocks : List β
  checksum : Nat
  deriving DecidableEq, Repr

/-- `File::save`/`save_file` without the filesystem write: emit magic and the
packed header and then the block-stream body, passed through the external
compressor (a parameter, which may fail) when `header.compressed` is set. -/
def encodeFile {β : Type} (sigOf : β → Nat) (R : Registry β)
    (comp : List Nat → Option (List Nat)) (f : FileR β) : Option (List Nat) :=
  let body := writeBlocks sigOf R f.blocks
  let head := leBytes 4 UMBF_MAGIC ++ packHeaderBytes f.header
  if f.header.compressed then (comp body).map (head ++ ·) else some (head ++ body)

/-- `File::read_from_bytes` (with `load_file` inlined): check the magic, read
and unpack the 12-byte header, decompress the rest through the external
decompressor (a parameter) when the compressed flag is set, read the block
list, and store `crc32(0, ...)` of the block-stream bytes (everything from
the position the block read started at) as the checksum. Any throw yields
`none`. -/
def readFromBytes {β : Type} (R : Registry β) (decomp : List Nat → Option (List Nat))
    (bytes : List Nat) : Option (FileR β) :=
  (readU32 ⟨bytes, 0⟩).bind fun m =>
    if m.1 ≠ UMBF_MAGIC then none
    else
      (readBytes 12 m.2).bind fun pb =>
        (if (unpackHeader pb.1).compressed then
            (decomp (pb.2.data.drop pb.2.pos)).map fun dec => (⟨dec, 0⟩ : RStream)
          else some pb.2).bind fun stream =>
          (readBlocks R stream).bind fun bl =>
            some ⟨unpackHeader pb.1, bl.1, crc32 0 (stream.data.drop stream.pos)⟩

/-! ## MaterialNode codec (`umbf.hpp` write / `umbf.cpp` read specializations) -/

/-- `umbf::MaterialNode`: rgb colour (f32 bit patterns), textured flag, and
an `i16` texture index. -/
structure MaterialNode where
  rgb : Vec3
  textured : Bool
  texture_id : Int
  deriving DecidableEq, Repr

/-- The `u16` payload of a material node:
`textured ? ((1 << 15) | (texture_id & 0x7FFF)) : 0`. -/
def mnData (n : MaterialNode) : Nat :=
  if n.textured then (1 <<< 15) ||| (n.texture_id % (2 ^ 15 : Int)).toNat else 0

/-- `bin_stream::write(const umbf::MaterialNode&)`:
`write(rgb).write(data)` with `data = mnData`. -/
def writeMaterialNode (n : MaterialNode) (s : List Nat) : List Nat :=
  s |> wVec3 n.rgb |> wU16 (mnData n)

/-- `bin_stream::read(umbf::MaterialNode&)`: `textured = data >> 15`,
`texture_id = textured ? (data & 0x7FFF) : 0`. -/
def readMaterialNode (s : RStream) : Option (MaterialNode × RStream) :=
  (readVec3 s).bind fun p =>
    (readU16 p.2).bind fun q =>
      let t : Bool := q.1 >>> 15 != 0
      some (⟨p.1, t, if t then ((q.1 &&& 0x7FFF : Nat) : Int) else 0⟩, q.2)

/-! ## Barycentric bit-packing (`stream.cpp` `encode`/`decode`/`pack`/`unpack`) -/

/-- A mesh barycentric vertex (`mesh::bary::Vertex`). -/
structure BaryV where
  pos : Vec3
  barycentric : Vec3
  deriving DecidableEq, Repr

/-- `encode(const glm::vec3&)`: a 3-bit pattern, bit `k` set iff component `k`
is nonzero (`x` at bit 2). -/
def encB (v : Vec3) : Nat :=
  ((0 ||| ((if f32Nonzero v.x then 1 else 0) <<< 2)) |||
      ((if f32Nonzero v.y then 1 else 0) <<< 1)) |||
    (if f32Nonzero v.z then 1 else 0)

/-- `decode(u8, glm::vec3&)`: pattern bit 1 becomes `1.0f`, 0 becomes `0.0f`
(bit patterns `oneF32` / `0`); the argument is truncated to `u8`. -/
def decB (w : Nat) : Vec3 :=
  let b := w % 256
  ⟨if (b >>> 2) % 2 = 1 then oneF32 else 0,
    if (b >>> 1) % 2 = 1 then oneF32 else 0,
    if b % 2 = 1 then oneF32 else 0⟩

/-- State of the `pack` loops: output words, word index, bit offset, vertex index. -/
structure PackSt where
  words : List Nat
  bid : Nat
  offset : Nat
  i : Nat
  deriving DecidableEq, Repr

/-- `pack64[k] |= x` (64-bit or into one output word). -/
def orWord (ws : List Nat) (k : Nat) (x : Nat) : List Nat :=
  ws.set k (ws.getD k 0 ||| x)

def zeroV3 : Vec3 := ⟨0, 0, 0⟩
def defaultBary : BaryV := ⟨zeroV3, zeroV3⟩

/-- The inner `while (offset < 61 && i < barycentric.size())` loop of `pack`.
The fuel is the number of vertices left, which bounds the iterations. -/
def packInner (b : List BaryV) : Nat → PackSt → PackSt
  | 0, st => st
  | fuel + 1, st =>
    if st.offset < 61 ∧ st.i < b.length then
      packInner b fuel
        { st with
          words := orWord st.words st.bid
            ((encB (b.getD st.i defaultBary).barycentric <<< (61 - st.offset)) % 2 ^ 64)
          offset := st.offset + 3
          i := st.i + 1 }
    else st

/-- One iteration of the outer `while (bid < packSize)` loop of `pack`:
the leading carry write (`if (offset != 0) ...`), the inner loop, and the
straddle write (`if (i < size && offset < 64) ...`). -/
def packStep (b : List BaryV) (st : PackSt) : PackSt :=
  let st :=
    if st.offset ≠ 0 then
      { st with
        words := orWord st.words st.bid
          ((encB (b.getD st.i defaultBary).barycentric <<< (64 - st.offset)) % 2 ^ 64)
        i := st.i + 1 }
    else st
  let st := packInner b (b.length - st.i) st
  if st.i < b.length ∧ st.offset < 64 then
    let off := 3 - (64 - st.offset)
    { st with
      offset := off
      words := orWord st.words st.bid (encB (b.getD st.i defaultBary).barycentric >>> off)
      i := if off = 0 then st.i + 1 else st.i }
  else st

/-- The outer loop of `pack`; `bid` increases by one per iteration, so
`packSize` much fuel runs it to completion. -/
def packOuter (b : List BaryV) : Nat → PackSt → PackSt
  | 0, st => st
  | fuel + 1, st =>
    if st.bid < (3 * b.length + 63) / 64 then
      packOuter b fuel { packStep b st with bid := st.bid + 1 }
    else st

/-- `pack(const vector<bary::Vertex>&)`: `ceil(3n/64)` zeroed `u64` words
filled MSB-first with the 3-bit patterns. -/
def pack (b : List BaryV) : List Nat :=
  let packSize := (3 * b.length + 63) / 64
  (packOuter b packSize ⟨List.replicate packSize 0, 0, 0, 0⟩).words

/-- State of the `unpack` loops: output vectors, word index, bit offset, output index. -/
structure UnpSt where
  out : List Vec3
  bid : Nat
  offset : Nat
  i : Nat
  deriving DecidableEq, Repr

/-- The inner `while (offset < 61 && i < size)` loop of `unpack`. -/
def unpInner (src : List Nat) (n : Nat) : Nat → UnpSt → UnpSt
  | 0, st => st
  | fuel + 1, st =>
    if st.offset < 61 ∧ st.i < n then
      unpInner src n fuel
        { st with
          out := st.out.set st.i (decB (src.getD st.bid 0 >>> (61 - st.offset)))
          offset := st.offset + 3
          i := st.i + 1 }
    else st

/-- One iteration of the outer `while (bid < size)` loop of `unpack`. -/
def unpStep (src : List Nat) (n : Nat) (st : UnpSt) : UnpSt :=
  let st := unpInner src n (n - st.i) st
  if st.i < n ∧ st.offset ≠ 64 then
    if st.offset = 61 then
      { st with
        out := st.out.set st.i (decB (src.getD st.bid 0 &&& 0x7))
        i := st.i + 1
        bid := st.bid + 1
        offset := 0 }
    else
      let tmp := src.getD st.bid 0 &&& (2 ^ (64 - st.offset) - 1)
      let off := 3 - (64 - st.offset)
      { st with
        out := st.out.set st.i
          (decB (((tmp <<< off) % 2 ^ 64) ||| (src.getD (st.bid + 1) 0 >>> (64 - off))))
        i := st.i + 1
        bid := st.bid + 1
        offset := off }
  else { st with bid := st.bid + 1 }

/-- The outer loop of `unpack`; every iteration increases `bid` by one. -/
def unpOuter (src : List Nat) (n : Nat) : Nat → UnpSt → UnpSt
  | 0, st => st
  | fuel + 1, st =>
    if st.bid < n then unpOuter src n fuel (unpStep src n st) else st

/-- `unpack(const vector<u64>&, size_t)`: decode `n` barycentric vectors. -/
def unpack (src : List Nat) (n : Nat) : List Vec3 :=
  (unpOuter src n n ⟨List.replicate n zeroV3, 0, 0, 0⟩).out

/-! ## Mesh data model (`umbf.hpp` `namespace mesh`) and codec (`stream.cpp`) -/

/-- `mesh::Vertex`: position, uv, normal, all f32 bit patterns. -/
structure VertexV where
  pos : Vec3
  uv : Vec2
  normal : Vec3
  deriving DecidableEq, Repr

/-- The default-constructed vertex (all components `0.0f`). -/
def defaultVertex : VertexV := ⟨zeroV3, ⟨0, 0⟩, zeroV3⟩

/-- `mesh::VertexGroup`. -/
structure GroupV where
  vertices : List Nat
  faces : List Nat
  deriving DecidableEq, Repr

/-- `mesh::VertexRef`. -/
structure VertexRefV where
  group : Nat
  vertex : Nat
  deriving DecidableEq, Repr

/-- `mesh::IndexedFace`. -/
structure FaceV where
  vertices : List VertexRefV
  normal : Vec3
  startID : Nat
  indexCount : Nat
  deriving DecidableEq, Repr

/-- `mesh::Transform`. -/
structure TransformV where
  position : Vec3
  rotation : Vec3
  scale : Vec3
  deriving DecidableEq, Repr

/-- The default-constructed transform: zero position and rotation, scale
`(1.0f, 1.0f, 1.0f)`. -/
def defaultTransform : TransformV := ⟨zeroV3, zeroV3, ⟨oneF32, oneF32, oneF32⟩⟩

/-- `mesh::MeshBlock` together with its owned `mesh::Model`. -/
structure MeshData where
  vertices : List VertexV
  groups : List GroupV
  faces : List FaceV
  indices : List Nat
  aabbMin : Vec3
  aabbMax : Vec3
  baryVertices : List BaryV
  transform : TransformV
  normalsAngle : Nat
  deriving DecidableEq, Repr

/-- Raw contiguous array write of `w`-byte little-endian elements. -/
def leArr (w : Nat) (xs : List Nat) : List Nat := (xs.map (leBytes w)).flatten

/-- `streams::writeMesh`: sizes, groups (anchor position of the group's first
vertex, vertex indices, face indices), per-vertex uv and normal, faces with
their contiguous index slices, packed barycentrics, AABB, transform. -/
def writeMesh (m : MeshData) : List Nat :=
  let s := [] |> wU32 m.vertices.length |> wU32 m.groups.length
    |> wU32 m.faces.length |> wU32 m.indices.length
  let s := m.groups.foldl
    (fun s g =>
      s |> wVec3 (m.vertices.getD (g.vertices.headD 0) defaultVertex).pos
        |> wU32 g.vertices.length |> wBytes (leArr 4 g.vertices)
        |> wU32 g.faces.length |> wBytes (leArr 4 g.faces))
    s
  let s := m.vertices.foldl (fun s v => s |> wVec2 v.uv |> wVec3 v.normal) s
  let s := m.faces.foldl
    (fun s f =>
      let s := s |> wU32 f.vertices.length
        |> wBytes ((f.vertices.map fun r => leBytes 4 r.group ++ leBytes 4 r.vertex).flatten)
        |> wVec3 f.normal |> wU16 f.indexCount
      (List.range f.indexCount).foldl (fun s k => s |> wU32 (m.indices.getD (f.startID + k) 0)) s)
    s
  let s := s |> wBytes (leArr 8 (pack m.baryVertices))
  let s := s |> wVec3 m.aabbMin |> wVec3 m.aabbMax
  s |> wVec3 m.transform.position |> wVec3 m.transform.rotation |> wVec3 m.transform.scale

/-- One group on the read side: the anchor position is read into a local and
discarded; only the two index arrays are kept. -/
def readGroup (s : RStream) : Option (GroupV × RStream) := do
  let (_pos, s) ← readVec3 s
  let (grV, s) ← readU32 s
  let (verts, s) ← readN readU32 grV s
  let (grF, s) ← readU32 s
  let (fcs, s) ← readN readU32 grF s
  pure (⟨verts, fcs⟩, s)

/-- One vertex on the read side: only uv and normal are deserialized. -/
def readUVNormal (s : RStream) : Option ((Vec2 × Vec3) × RStream) := do
  let (uv, s) ← readVec2 s
  let (nm, s) ← readVec3 s
  pure ((uv, nm), s)

def readVertexRef (s : RStream) : Option (VertexRefV × RStream) := do
  let (g, s) ← readU32 s
  let (v, s) ← readU32 s
  pure (⟨g, v⟩, s)

/-- `model.indices[k + i] = vals[i]`: write a run of values into the
preallocated index array. -/
def writeRun (xs : List Nat) (k : Nat) (vs : List Nat) : List Nat :=
  match vs with
  | [] => xs
  | v :: vs => writeRun (xs.set k v) (k + 1) vs

/-- The face loop of `readMesh`: reconstructs each face's `startID` as the
running sum of previous faces' `indexCount` and writes the face's index slice
into the shared index array. -/
def readFaces : Nat → List Nat → Nat → RStream → Option ((List FaceV × List Nat) × RStream)
  | 0, indices, _, s => some (([], indices), s)
  | n + 1, indices, indexID, s => do
    let (fv, s) ← readU32 s
    let (vrefs, s) ← readN readVertexRef fv s
    let (nm, s) ← readVec3 s
    let (icnt, s) ← readU16 s
    let (vals, s) ← readN readU32 icnt s
    let indices := writeRun indices indexID vals
    let (rest, s) ← readFaces n indices (indexID + icnt) s
    pure ((⟨vrefs, nm, indexID, icnt⟩ :: rest.1, rest.2), s)

/-- `streams::readMesh`: note that vertex positions are never deserialized
(the per-group anchor is discarded and per-vertex records carry only uv and
normal), and nothing after the AABB is read — the transform written by
`writeMesh` is left in the stream. -/
def readMesh (s : RStream) : Option (MeshData × RStream) := do
  let (vCount, s) ← readU32 s
  let (gCount, s) ← readU32 s
  let (fCount, s) ← readU32 s
  let (iCount, s) ← readU32 s
  let (groups, s) ← readN readGroup gCount s
  let (uvns, s) ← readN readUVNormal vCount s
  let vertices := uvns.map fun p => ⟨zeroV3, p.1, p.2⟩
  let (fi, s) ← readFaces fCount (List.replicate iCount 0) 0 s
  let (words, s) ← readN readU64 ((iCount * 3 + 63) / 64) s
  let bvec := unpack words iCount
  let baryVertices := (List.range iCount).map fun i =>
    ⟨(vertices.getD (fi.2.getD i 0) defaultVertex).pos, bvec.getD i zeroV3⟩
  let (mn, s) ← readVec3 s
  let (mx, s) ← readVec3 s
  pure (⟨vertices, groups, fi.1, fi.2, mn, mx, baryVertices, defaultTransform, 0⟩, s)

/-! ## A concrete block universe with the mesh and material-range codecs -/

/-- Concrete blocks used for whole-file evaluations. -/
inductive BlockV where
  | mesh (m : MeshData)
  | matRange (matID : Nat) (faces : List Nat)
  deriving DecidableEq, Repr

def sigMesh : Nat := 0xF224B521
def sigMatRange : Nat := 0xC441E54D

/-- `Block::signature()`. -/
def sigOfBlock : BlockV → Nat
  | .mesh _ => sigMesh
  | .matRange _ _ => sigMatRange

/-- `streams::writeMatRangeAssign`. -/
def writeMatRange (matID : Nat) (faces : List Nat) : List Nat :=
  [] |> wU64 matID |> wU32 faces.length |> wBytes (leArr 4 faces)

/-- `streams::readMatRangeAssign`. -/
def readMatRange (s : RStream) : Option ((Nat × List Nat) × RStream) := do
  let (matID, s) ← readU64 s
  let (n, s) ← readU32 s
  let (fcs, s) ← readN readU32 n s
  pure ((matID, fcs), s)

def meshCodec : Codec BlockV :=
  ⟨fun s => (readMesh s).map fun (m, s') => (some (.mesh m), s'),
    fun b => match b with | .mesh m => writeMesh m | _ => []⟩

def matRangeCodec : Codec BlockV :=
  ⟨fun s => (readMatRange s).map fun (p, s') => (some (.matRange p.1 p.2), s'),
    fun b => match b with | .matRange id fcs => writeMatRange id fcs | _ => []⟩

/-- The registry with the mesh and material-range-assign streams registered. -/
def stdRegistry : Registry BlockV := fun sig =>
  if sig = sigMesh then some meshCodec
  else if sig = sigMatRange then some matRangeCodec
  else none

/-! ## Library node tree codec (`umbf.cpp` `bin_stream::write/read(Library::Node)`)

`Library::Node` holds a name, a folder flag, child nodes, and a nested
`File`; the nested file is written as its packed 12-byte header followed by
its framed block stream. The block universe stays a parameter `β`, with the
registry resolving the nested blocks. -/

/-- `umbf::Library::Node`. -/
inductive LibNode (β : Type) where
  | node (name : List Nat) (isFolder : Bool) (children : List (LibNode β)) (asset : FileR β)

/-- The default-constructed `File` held by nodes whose asset is never read. -/
def defaultFileR (β : Type) : FileR β := ⟨⟨0, 0, 0, 0, false⟩, [], 0⟩

mutual

/-- `bin_stream::write(const umbf::Library::Node&)`: name, folder flag, child
count (`u16`, truncated); with children only the children follow; a non-folder
leaf carries its nested file, refused (`none`, the C++ throw) when the nested
header's `type_sign` is `none`. -/
def writeNode {β : Type} (sigOf : β → Nat) (R : Registry β) : LibNode β → Option (List Nat)
  | .node name isF ch asset =>
    let base := [] |> wString name |> wU8 (if isF then 1 else 0) |> wU16 ch.length
    if ch.length % 2 ^ 16 > 0 then (writeNodeL sigOf R ch).map (base ++ ·)
    else if isF then some base
    else if asset.header.type_sign = 0 then none
    else some (base ++ packHeaderBytes asset.header ++ writeBlocks sigOf R asset.blocks)

def writeNodeL {β : Type} (sigOf : β → Nat) (R : Registry β) : List (LibNode β) → Option (List Nat)
  | [] => some []
  | c :: cs =>
    (writeNode sigOf R c).bind fun b =>
      (writeNodeL sigOf R cs).bind fun bs => some (b ++ bs)

end

mutual

/-- The same serialization without the corrupt-leaf refusal, used to build
byte streams that exercise the decoder's `CorruptLibrary` check. -/
def writeNodeU {β : Type} (sigOf : β → Nat) (R : Registry β) : LibNode β → List Nat
  | .node name isF ch asset =>
    let base := [] |> wString name |> wU8 (if isF then 1 else 0) |> wU16 ch.length
    if ch.length % 2 ^ 16 > 0 then base ++ writeNodeUL sigOf R ch
    else if isF then base
    else base ++ packHeaderBytes asset.header ++ writeBlocks sigOf R asset.blocks

def writeNodeUL {β : Type} (sigOf : β → Nat) (R : Registry β) : List (LibNode β) → List Nat
  | [] => []
  | c :: cs => writeNodeU sigOf R c ++ writeNodeUL sigOf R cs

end

mutual

/-- Does some reachable non-folder leaf (zero child count, as truncated to
`u16`) carry a nested file with `type_sign == none`? -/
def hasCorrupt {β : Type} : LibNode β → Bool
  | .node _ isF ch asset =>
    if ch.length % 2 ^ 16 > 0 then hasCorruptL ch
    else !isF && asset.header.type_sign == 0

def hasCorruptL {β : Type} : List (LibNode β) → Bool
  | [] => false
  | c :: cs => hasCorrupt c || hasCorruptL cs

end

mutual

/-- `bin_stream::read(umbf::Library::Node&)`, fuelled (any fuel at least the
tree's node-and-edge count runs it to completion): name, folder byte, child
count; children recurse; a non-folder leaf reads the nested file (packed
header, then the framed block stream through the registry) and throws
(`none`) when the decoded `type_sign` is `none`. -/
def readNodeF {β : Type} (R : Registry β) : Nat → RStream → Option (LibNode β × RStream)
  | 0, _ => none
  | fuel + 1, s =>
    (readString s).bind fun pn =>
      (readU8 pn.2).bind fun pf =>
        (readU16 pf.2).bind fun pc =>
          if pc.1 > 0 then
            (readNodeLF R fuel pc.1 pc.2).bind fun pch =>
              some (.node pn.1 (pf.1 != 0) pch.1 (defaultFileR β), pch.2)
          else if pf.1 != 0 then some (.node pn.1 true [] (defaultFileR β), pc.2)
          else
            (readBytes 12 pc.2).bind fun ph =>
              (readBlocks R ph.2).bind fun pb =>
                if (unpackHeader ph.1).type_sign = 0 then none
                else some (.node pn.1 false [] ⟨unpackHeader ph.1, pb.1, 0⟩, pb.2)

/-- Read `cnt` child nodes in order, spending fuel per node. -/
def readNodeLF {β : Type} (R : Registry β) : Nat → Nat → RStream → Option (List (LibNode β) × RStream)
  | _, 0, s => some ([], s)
  | 0, _ + 1, _ => none
  | fuel + 1, cnt + 1, s =>
    (readNodeF R fuel s).bind fun pc =>
      (readNodeLF R fuel cnt pc.2).bind fun pcs =>
        some (pc.1 :: pcs.1, pcs.2)

end

mutual

/-- Node-and-edge count of a tree: the fuel budget one node costs. -/
def nodeSize {β : Type} : LibNode β → Nat
  | .node _ _ ch _ => 1 + listSizeN ch

def listSizeN {β : Type} : List (LibNode β) → Nat
  | [] => 0
  | c :: cs => 1 + nodeSize c + listSizeN cs

end

mutual

/-- Trees whose serialized form the reader can re-trace structurally: name
lengths fit a `u32`, child counts fit a `u16`, leaf headers carry a `u16`
type signature, and leaf assets hold no blocks (so the nested block stream
is just the terminator, independent of the registry). -/
def wfNode {β : Type} : LibNode β → Bool
  | .node name _ ch asset =>
    decide (name.length < 2 ^ 32) && decide (ch.length < 2 ^ 16) &&
      decide (asset.header.type_sign < 2 ^ 16) && asset.blocks.isEmpty && wfNodeL ch

def wfNodeL {β : Type} : List (LibNode β) → Bool
  | [] => true
  | c :: cs => wfNode c && wfNodeL cs

end

/-! ## Parsing lemmas: what each reader consumes from a well-placed stream -/

/-- `rd`, run on any stream whose cursor sits just before `consumed`, returns
`a` and advances the cursor exactly past `consumed`. -/
def ParsesTo {α : Type} (rd : RStream → Option (α × RStream)) (consumed : List Nat) (a : α) : Prop :=
  ∀ pre post : List Nat,
    rd ⟨pre ++ consumed ++ post, pre.length⟩ =
      some (a, ⟨pre ++ consumed ++ post, pre.length + consumed.length⟩)

theorem leVal_leBytes_mod (w v : Nat) : leVal (leBytes w v) = v % 2 ^ (8 * w) := by
  induction w generalizing v with
  | zero => simp [leBytes, leVal]; omega
  | succ k ih =>
    simp only [leBytes, leVal, ih]
    rw [show (2 : Nat) ^ (8 * (k + 1)) = 256 * 2 ^ (8 * k) by ring, Nat.mod_mul]
    omega

theorem readBytes_parses (bs : List Nat) (n : Nat) (h : bs.length = n) :
    ParsesTo (readBytes n) bs bs := by
  intro pre post
  have hlen : pre.length + n ≤ (pre ++ bs ++ post).length := by
    simp only [List.length_append]
    omega
  have hdt : ((pre ++ bs ++ post).drop pre.length).take n = bs := by
    rw [List.append_assoc, List.drop_left, ← h, List.take_left]
  rw [readBytes, if_pos hlen, hdt, ← h]

theorem readU8_parses (v : Nat) : ParsesTo readU8 (leBytes 1 v) (v % 2 ^ 8) := by
  intro pre post
  rw [readU8, readBytes_parses (leBytes 1 v) 1 (leBytes_length 1 v) pre post]
  simp [leVal_leBytes_mod]

theorem readU16_parses (v : Nat) : ParsesTo readU16 (leBytes 2 v) (v % 2 ^ 16) := by
  intro pre post
  rw [readU16, readBytes_parses (leBytes 2 v) 2 (leBytes_length 2 v) pre post]
  simp [leVal_leBytes_mod]

theorem readU32_parses (v : Nat) : ParsesTo readU32 (leBytes 4 v) (v % 2 ^ 32) := by
  intro pre post
  rw [readU32, readBytes_parses (leBytes 4 v) 4 (leBytes_length 4 v) pre post]
  simp [leVal_leBytes_mod]

theorem readU64_parses (v : Nat) : ParsesTo readU64 (leBytes 8 v) (v % 2 ^ 64) := by
  intro pre post
  rw [readU64, readBytes_parses (leBytes 8 v) 8 (leBytes_length 8 v) pre post]
  simp [leVal_leBytes_mod]

theorem readVec3_parses (v : Vec3) :
    ParsesTo readVec3 (leBytes 4 v.x ++ leBytes 4 v.y ++ leBytes 4 v.z)
      ⟨v.x % 2 ^ 32, v.y % 2 ^ 32, v.z % 2 ^ 32⟩ := by
  intro pre post
  have h1 := readU32_parses v.x pre (leBytes 4 v.y ++ leBytes 4 v.z ++ post)
  have h2 := readU32_parses v.y (pre ++ leBytes 4 v.x) (leBytes 4 v.z ++ post)
  have h3 := readU32_parses v.z (pre ++ leBytes 4 v.x ++ leBytes 4 v.y) post
  simp only [List.append_assoc, List.length_append, leBytes_length] at h1 h2 h3 ⊢
  rw [readVec3]
  rw [show (do
        let (a, s) ← readU32 (⟨pre ++ (leBytes 4 v.x ++ (leBytes 4 v.y ++ (leBytes 4 v.z ++ post))),
          pre.length⟩ : RStream)
        let (b, s) ← readU32 s
        let (c, s) ← readU32 s
        pure ((⟨a, b, c⟩ : Vec3), s)) =
      ((readU32 (⟨pre ++ (leBytes 4 v.x ++ (leBytes 4 v.y ++ (leBytes 4 v.z ++ post))),
          pre.length⟩ : RStream)).bind fun p =>
        (readU32 p.2).bind fun q => (readU32 q.2).bind fun r => some (⟨p.1, q.1, r.1⟩, r.2)) from rfl]
  rw [h1]
  show (readU32 _).bind _ = _
  rw [h2]
  show (readU32 _).bind _ = _
  rw [h3]
  show some _ = _
  congr 2

theorem readString_parses (str : List Nat) (h : str.length < 2 ^ 32) :
    ParsesTo readString (leBytes 4 str.length ++ str) str := by
  intro pre post
  have h1 := readU32_parses str.length pre (str ++ post)
  have h2 := readBytes_parses str str.length rfl (pre ++ leBytes 4 str.length) post
  simp only [List.append_assoc, List.length_append, leBytes_length] at h1 h2 ⊢
  rw [readString]
  rw [show (do
        let (n, s) ← readU32 (⟨pre ++ (leBytes 4 str.length ++ (str ++ post)), pre.length⟩ : RStream)
        readBytes n s) =
      ((readU32 (⟨pre ++ (leBytes 4 str.length ++ (str ++ post)), pre.length⟩ : RStream)).bind
        fun p => readBytes p.1 p.2) from rfl]
  rw [h1]
  show readBytes (str.length % 2 ^ 32) _ = _
  rw [Nat.mod_eq_of_lt h, h2]
  simp [Nat.add_assoc]

/-- Parse a list of records, each from its own consumed bytes. -/
theorem readN_parses {α : Type} (rd : RStream → Option (α × RStream))
    (items : List (List Nat × α)) (h : ∀ it ∈ items, ParsesTo rd it.1 it.2) :
    ParsesTo (readN rd items.length) ((items.map Prod.fst).flatten) (items.map Prod.snd) := by
  induction items with
  | nil => intro pre post; simp [readN]
  | cons it rest ih =>
    intro pre post
    have h1 := h it (List.mem_cons_self it rest) pre ((rest.map Prod.fst).flatten ++ post)
    have h2 := ih (fun x hx => h x (List.mem_cons_of_mem it hx)) (pre ++ it.1) post
    simp only [List.append_assoc, List.length_append, List.map_cons, List.flatten_cons,
      List.length_cons] at h1 h2 ⊢
    rw [show readN rd (rest.length + 1) = readN rd (rest.length + 1) from rfl]
    rw [readN]
    rw [show (do
        let (a, s) ← rd (⟨pre ++ (it.1 ++ ((rest.map Prod.fst).flatten ++ post)),
          pre.length⟩ : RStream)
        let (as, s) ← readN rd rest.length s
        pure (a :: as, s)) =
      ((rd (⟨pre ++ (it.1 ++ ((rest.map Prod.fst).flatten ++ post)), pre.length⟩ : RStream)).bind
        fun p => (readN rd rest.length p.2).bind fun q => some (p.1 :: q.1, q.2)) from rfl]
    rw [h1]
    show (readN rd rest.length _).bind _ = _
    rw [h2]
    show some _ = _
    simp [Nat.add_assoc]

/-! ## Header round-trip -/

/-- The field masking performed by `pack_header`/`unpack_header`: the three
24-bit fields lose their high bits, `type_sign` is reassembled from its two
bytes. -/
def maskHeader (h : Header) : Header :=
  ⟨h.vendor_sign % 2 ^ 24, h.vendor_version % 2 ^ 24, h.type_sign % 2 ^ 16,
    h.spec_version % 2 ^ 24, h.compressed⟩

mutual

/-- What the reader reconstructs from a serialized well-formed tree: inner
and folder nodes get the default asset, leaves get the masked header with an
empty block list and checksum `0`. -/
def readBack {β : Type} : LibNode β → LibNode β
  | .node name isF ch asset =>
    if 0 < ch.length then .node name isF (readBackL ch) (defaultFileR β)
    else if isF then .node name true [] (defaultFileR β)
    else .node name false [] ⟨maskHeader asset.header, [], 0⟩

def readBackL {β : Type} : List (LibNode β) → List (LibNode β)
  | [] => []
  | c :: cs => readBack c :: readBackL cs

end

theorem packHeaderBytes_length (h : Header) : (packHeaderBytes h).length = 12 := by
  simp [packHeaderBytes, leBytes_length]

theorem unpack_pack_header (h : Header) : unpackHeader (packHeaderBytes h) = maskHeader h := by
  have e : packHeaderBytes h =
      [h.vendor_sign % 2 ^ 24 % 256, h.vendor_sign % 2 ^ 24 / 256 % 256,
        h.vendor_sign % 2 ^ 24 / 256 / 256 % 256, if h.compressed then 1 else 0,
        h.vendor_version % 2 ^ 24 % 256, h.vendor_version % 2 ^ 24 / 256 % 256,
        h.vendor_version % 2 ^ 24 / 256 / 256 % 256, h.type_sign % 256,
        h.type_sign / 256 % 256, h.spec_version % 2 ^ 24 % 256,
        h.spec_version % 2 ^ 24 / 256 % 256, h.spec_version % 2 ^ 24 / 256 / 256 % 256] := by
    simp [packHeaderBytes, leBytes]
  rw [e]
  simp only [unpackHeader, maskHeader, leVal, List.getD_cons_zero, List.getD_cons_succ,
    List.take_cons, List.drop_succ_cons, List.drop_zero, List.take_nil, List.take,
    Header.mk.injEq]
  refine ⟨by omega, by omega, by omega, by omega, ?_⟩
  cases h.compressed <;> simp

theorem readVec2_parses (v : Vec2) :
    ParsesTo readVec2 (leBytes 4 v.x ++ leBytes 4 v.y) ⟨v.x % 2 ^ 32, v.y % 2 ^ 32⟩ := by
  intro pre post
  have h1 := readU32_parses v.x pre (leBytes 4 v.y ++ post)
  have h2 := readU32_parses v.y (pre ++ leBytes 4 v.x) post
  simp only [List.append_assoc, List.length_append, leBytes_length] at h1 h2 ⊢
  rw [readVec2]
  rw [show (do
        let (a, s) ← readU32 (⟨pre ++ (leBytes 4 v.x ++ (leBytes 4 v.y ++ post)),
          pre.length⟩ : RStream)
        let (b, s) ← readU32 s
        pure ((⟨a, b⟩ : Vec2), s)) =
      ((readU32 (⟨pre ++ (leBytes 4 v.x ++ (leBytes 4 v.y ++ post)),
          pre.length⟩ : RStream)).bind fun p =>
        (readU32 p.2).bind fun q => some (⟨p.1, q.1⟩, q.2)) from rfl]
  rw [h1]
  show (readU32 _).bind _ = _
  rw [h2]
  show some _ = _
  congr 2

/-! ## The framing lemma: what the block-read loop does to a frame list -/

/-- The wire bytes of one frame: `u64 block_size, u32 signature, payload`. -/
def frameBytes (fr : Nat × List Nat) : List Nat :=
  leBytes 8 fr.2.length ++ leBytes 4 fr.1 ++ fr.2

/-- A frame list followed by the `u64 0` terminator. -/
def framesBytes (frs : List (Nat × List Nat)) : List Nat :=
  (frs.map frameBytes).flatten ++ leBytes 8 0

/-- A frame with a signature a `u32` can carry and a payload whose size is
representable and nonzero (a zero-size frame is the terminator). -/
def WFFrame (fr : Nat × List Nat) : Prop :=
  1 ≤ fr.2.length ∧ fr.2.length < 2 ^ 64 ∧ fr.1 < 2 ^ 32

/-- How the loop treats one frame: `none` — its signature is unregistered
(skipped); `some r` — a codec is registered and its reader, run at the
payload, consumes exactly the payload and returns `r` (`none` = null block,
`some b` = block `b`). -/
def FrameAction {β : Type} (R : Registry β) (fr : Nat × List Nat) (ob : Option (Option β)) : Prop :=
  match ob with
  | none => R fr.1 = none
  | some r => ∃ c, R fr.1 = some c ∧
      ∀ pre post : List Nat, c.read ⟨pre ++ fr.2 ++ post, pre.length⟩ =
        some (r, ⟨pre ++ fr.2 ++ post, pre.length + fr.2.length⟩)

theorem frameBytes_length (fr : Nat × List Nat) : (frameBytes fr).length = 12 + fr.2.length := by
  simp [frameBytes, leBytes_length]
  omega

theorem framesBytes_cons (fr : Nat × List Nat) (frs : List (Nat × List Nat)) :
    framesBytes (fr :: frs) = frameBytes fr ++ framesBytes frs := by
  simp [framesBytes]

theorem shift_mk (n : Nat) (d : List Nat) (p : Nat) :
    shift n (⟨d, p⟩ : RStream) = ⟨d, p + n⟩ := rfl

/-- The block list produced from per-frame outcomes: skipped and null frames
contribute nothing, decoded frames contribute their block in order. -/
def decodedBlocks {β : Type} : List (Option (Option β)) → List β
  | [] => []
  | none :: rest => decodedBlocks rest
  | some none :: rest => decodedBlocks rest
  | some (some b) :: rest => b :: decodedBlocks rest

/-- Main framing lemma: on a stream positioned at an encoded frame list, the
read loop returns exactly the blocks produced by the registered frames, in
order, skipping unregistered ones and dropping null results, and stops just
past the terminator. -/
theorem readBlocksFuel_frames {β : Type} (R : Registry β) (frs : List (Nat × List Nat))
    (obs : List (Option (Option β))) (pre post : List Nat) (fuel : Nat)
    (hfuel : frs.length < fuel)
    (hfa : List.Forall₂ (fun fr ob => WFFrame fr ∧ FrameAction R fr ob) frs obs) :
    readBlocksFuel R fuel ⟨pre ++ framesBytes frs ++ post, pre.length⟩ =
      some (decodedBlocks obs,
        ⟨pre ++ framesBytes frs ++ post, pre.length + (framesBytes frs).length⟩) := by
  induction hfa generalizing pre fuel with
  | nil =>
    match fuel, hfuel with
    | f + 1, _ =>
      have h64 := readU64_parses 0 pre post
      simp only [framesBytes, List.map_nil, List.flatten_nil, List.nil_append,
        List.append_assoc, List.length_append, leBytes_length] at h64 ⊢
      rw [readBlocksFuel]
      rw [if_pos (by simp only [List.length_append, leBytes_length]; omega)]
      rw [h64]
      simp [decodedBlocks]
  | cons hpair hrest ih =>
    rename_i fr ob frs' obs'
    match fuel, hfuel with
    | f + 1, hfuel =>
      rw [List.length_cons] at hfuel
      obtain ⟨⟨hlen1, hlen64, hsig⟩, hact⟩ := hpair
      have h64 := readU64_parses fr.2.length pre
        (leBytes 4 fr.1 ++ fr.2 ++ framesBytes frs' ++ post)
      have h32 := readU32_parses fr.1 (pre ++ leBytes 8 fr.2.length)
        (fr.2 ++ framesBytes frs' ++ post)
      have ihx := ih (pre ++ leBytes 8 fr.2.length ++ leBytes 4 fr.1 ++ fr.2) f (by omega)
      simp only [framesBytes_cons, frameBytes, List.append_assoc, List.length_append,
        leBytes_length, Nat.mod_eq_of_lt hlen64, Nat.mod_eq_of_lt hsig] at h64 h32 ihx ⊢
      rw [readBlocksFuel]
      rw [if_pos (by simp only [List.length_append, leBytes_length]; omega)]
      rw [h64, Option.some_bind]
      rw [if_neg (by omega : ¬fr.2.length = 0)]
      rw [show pre.length + (8 + 4) = pre.length + 8 + 4 from by omega] at h32
      rw [h32, Option.some_bind]
      rw [show pre.length + (8 + (4 + fr.2.length)) =
          pre.length + 8 + 4 + fr.2.length from by omega] at ihx
      rcases ob with _ | r
      · simp only [FrameAction] at hact
        rw [hact]
        show readBlocksFuel R f (shift fr.2.length _) = _
        rw [shift_mk, ihx]
        simp only [decodedBlocks, Option.some.injEq, Prod.mk.injEq,
          RStream.mk.injEq, true_and]
        omega
      · obtain ⟨c, hc, hcread⟩ := hact
        rw [hc]
        have hcr := hcread (pre ++ leBytes 8 fr.2.length ++ leBytes 4 fr.1)
          (framesBytes frs' ++ post)
        simp only [List.append_assoc, List.length_append, leBytes_length] at hcr
        rw [show pre.length + (8 + 4) = pre.length + 8 + 4 from by omega] at hcr
        rw [show pre.length + 8 + 4 + fr.2.length =
            pre.length + 8 + 4 + fr.2.length from rfl] at hcr
        show (c.read _).bind _ = _
        rw [hcr, Option.some_bind]
        rcases r with _ | b
        · show readBlocksFuel R f _ = _
          rw [ihx]
          simp only [decodedBlocks, Option.some.injEq, Prod.mk.injEq,
            RStream.mk.injEq, true_and]
          omega
        · show (readBlocksFuel R f _).map _ = _
          rw [ihx]
          simp only [Option.map_some', decodedBlocks, Option.some.injEq, Prod.mk.injEq,
            RStream.mk.injEq, true_and]
          omega

/-! ## Envelope-level unfoldings of `read_from_bytes` -/

theorem drop16_envelope (h : Header) (body : List Nat) :
    (leBytes 4 UMBF_MAGIC ++ packHeaderBytes h ++ body).drop 16 = body := by
  rw [List.append_assoc,
    show (16 : Nat) = (leBytes 4 UMBF_MAGIC ++ packHeaderBytes h).length by
      simp [leBytes_length, packHeaderBytes_length],
    ← List.append_assoc, List.drop_left]

theorem encodeFile_uncompressed {β : Type} (sigOf : β → Nat) (R : Registry β)
    (comp : List Nat → Option (List Nat)) (f : FileR β) (hc : f.header.compressed = false) :
    encodeFile sigOf R comp f =
      some (leBytes 4 UMBF_MAGIC ++ packHeaderBytes f.header ++ writeBlocks sigOf R f.blocks) := by
  simp [encodeFile, hc]

/-- `read_from_bytes` on an uncompressed envelope: the magic is accepted, the
header unpacked (masked), the block loop run from offset 16, and the checksum
is the CRC-32 of exactly the body bytes. -/
theorem readFromBytes_uncompressed {β : Type} (R : Registry β)
    (D : List Nat → Option (List Nat)) (h : Header) (body : List Nat)
    (hc : h.compressed = false) :
    readFromBytes R D (leBytes 4 UMBF_MAGIC ++ packHeaderBytes h ++ body) =
      (readBlocks R ⟨leBytes 4 UMBF_MAGIC ++ packHeaderBytes h ++ body, 16⟩).map
        fun p => ⟨maskHeader h, p.1, crc32 0 body⟩ := by
  have hm := readU32_parses UMBF_MAGIC [] (packHeaderBytes h ++ body)
  have hp := readBytes_parses (packHeaderBytes h) 12 (packHeaderBytes_length h)
    (leBytes 4 UMBF_MAGIC) body
  simp only [List.nil_append, List.length_nil, List.append_assoc, List.length_append,
    leBytes_length, packHeaderBytes_length,
    show UMBF_MAGIC % 2 ^ 32 = UMBF_MAGIC from by decide] at hm hp
  rw [readFromBytes, List.append_assoc]
  rw [show (0 : Nat) + 4 = 4 from rfl] at hm
  rw [hm, Option.some_bind]
  rw [if_neg (by simp)]
  rw [hp, Option.some_bind]
  rw [unpack_pack_header]
  rw [show (maskHeader h).compressed = h.compressed from rfl, hc]
  simp only [Bool.false_eq_true, if_false, Option.some_bind]
  rw [show List.drop (⟨leBytes 4 UMBF_MAGIC ++ (packHeaderBytes h ++ body), 4 + 12⟩ : RStream).pos
      (⟨leBytes 4 UMBF_MAGIC ++ (packHeaderBytes h ++ body), 4 + 12⟩ : RStream).data = body from by
    simpa [← List.append_assoc] using drop16_envelope h body]
  rw [show (⟨leBytes 4 UMBF_MAGIC ++ (packHeaderBytes h ++ body), 4 + 12⟩ : RStream) =
    ⟨leBytes 4 UMBF_MAGIC ++ packHeaderBytes h ++ body, 16⟩ from by simp]
  rcases readBlocks R (⟨leBytes 4 UMBF_MAGIC ++ packHeaderBytes h ++ body, 16⟩ : RStream)
    with _ | bl
  · rfl
  · rfl

/-- `read_from_bytes` on a compressed envelope: the remaining bytes go
through the external decompressor, the block loop runs on the fresh buffer
from offset 0, and the checksum is the CRC-32 of the decompressed bytes. -/
theorem readFromBytes_compressed {β : Type} (R : Registry β)
    (D : List Nat → Option (List Nat)) (h : Header) (cbody dec : List Nat)
    (hc : h.compressed = true) (hD : D cbody = some dec) :
    readFromBytes R D (leBytes 4 UMBF_MAGIC ++ packHeaderBytes h ++ cbody) =
      (readBlocks R ⟨dec, 0⟩).map fun p => ⟨maskHeader h, p.1, crc32 0 dec⟩ := by
  have hm := readU32_parses UMBF_MAGIC [] (packHeaderBytes h ++ cbody)
  have hp := readBytes_parses (packHeaderBytes h) 12 (packHeaderBytes_length h)
    (leBytes 4 UMBF_MAGIC) cbody
  simp only [List.nil_append, List.length_nil, List.append_assoc, List.length_append,
    leBytes_length, packHeaderBytes_length,
    show UMBF_MAGIC % 2 ^ 32 = UMBF_MAGIC from by decide] at hm hp
  rw [readFromBytes, List.append_assoc]
  rw [show (0 : Nat) + 4 = 4 from rfl] at hm
  rw [hm, Option.some_bind]
  rw [if_neg (by simp)]
  rw [hp, Option.some_bind]
  rw [unpack_pack_header]
  rw [show (maskHeader h).compressed = h.compressed from rfl, hc]
  rw [if_pos rfl]
  rw [show List.drop (⟨leBytes 4 UMBF_MAGIC ++ (packHeaderBytes h ++ cbody), 4 + 12⟩ : RStream).pos
      (⟨leBytes 4 UMBF_MAGIC ++ (packHeaderBytes h ++ cbody), 4 + 12⟩ : RStream).data = cbody from by
    simpa [← List.append_assoc] using drop16_envelope h cbody]
  rw [hD]
  simp only [Option.map_some', Option.some_bind]
  rcases readBlocks R (⟨dec, 0⟩ : RStream) with _ | bl
  · rfl
  · rfl

/-! ## Bit-arithmetic helpers for disjoint or-ing -/

theorem testBit_pow_mul_add_lo (q b m j : Nat) (hj : j < m) :
    (2 ^ m * q + b).testBit j = b.testBit j := by
  rw [Nat.testBit_to_div_mod, Nat.testBit_to_div_mod]
  rw [show 2 ^ m * q + b = b + 2 ^ j * (2 ^ (m - j) * q) by
    rw [← Nat.mul_assoc, ← Nat.pow_add]
    rw [show j + (m - j) = m from by omega]
    omega]
  rw [Nat.add_mul_div_left _ _ (Nat.pos_pow_of_pos j (by norm_num))]
  have : 2 ^ (m - j) * q = 2 * (2 ^ (m - j - 1) * q) := by
    rw [← Nat.mul_assoc, ← Nat.pow_succ']
    congr 2
    omega
  rw [this, decide_eq_decide]
  omega

theorem testBit_pow_mul_add_hi (q b m j : Nat) (hb : b < 2 ^ m) :
    (2 ^ m * q + b).testBit (m + j) = q.testBit j := by
  rw [Nat.testBit_to_div_mod, Nat.testBit_to_div_mod]
  rw [Nat.pow_add, ← Nat.div_div_eq_div_mul]
  rw [show 2 ^ m * q + b = b + 2 ^ m * q from by omega]
  rw [Nat.add_mul_div_left _ _ (Nat.pos_pow_of_pos m (by norm_num))]
  rw [Nat.div_eq_of_lt hb, Nat.zero_add]

theorem testBit_pow_mul (q m j : Nat) (hj : j < m) : (2 ^ m * q).testBit j = false := by
  have := testBit_pow_mul_add_lo q 0 m j hj
  simpa using this

/-- Disjoint or is addition: the high part has no bits below `m`, the low
part none at or above `m`. -/
theorem lor_pow_mul_add (q b m : Nat) (hb : b < 2 ^ m) :
    2 ^ m * q ||| b = 2 ^ m * q + b := by
  apply Nat.eq_of_testBit_eq
  intro j
  rw [Nat.testBit_lor]
  by_cases hj : j < m
  · rw [testBit_pow_mul_add_lo _ _ _ _ hj, testBit_pow_mul _ _ _ hj, Bool.false_or]
  · have hj' : j = m + (j - m) := by omega
    rw [hj', testBit_pow_mul_add_hi _ _ _ _ hb]
    rw [show Nat.testBit b (m + (j - m)) = false from
      Nat.testBit_lt_two_pow (lt_of_lt_of_le hb (Nat.pow_le_pow_right (by norm_num) (by omega)))]
    rw [Bool.or_false]
    simpa using testBit_pow_mul_add_hi q 0 m (j - m) (Nat.pos_pow_of_pos m (by norm_num))

/-! ## C7: MaterialNode round-trip -/

/-- Encode a material node and decode the produced bytes. -/
def mnRT (n : MaterialNode) : Option MaterialNode :=
  (readMaterialNode ⟨writeMaterialNode n [], 0⟩).map Prod.fst

theorem mnRT_eq (n : MaterialNode) :
    mnRT n =
      some ⟨⟨n.rgb.x % 2 ^ 32, n.rgb.y % 2 ^ 32, n.rgb.z % 2 ^ 32⟩,
        (mnData n % 2 ^ 16) >>> 15 != 0,
        if (mnData n % 2 ^ 16) >>> 15 != 0 then (((mnData n % 2 ^ 16) &&& 0x7FFF : Nat) : Int)
        else 0⟩ := by
  have h1 := readVec3_parses n.rgb [] (leBytes 2 (mnData n))
  have h2 := readU16_parses (mnData n)
    (leBytes 4 n.rgb.x ++ leBytes 4 n.rgb.y ++ leBytes 4 n.rgb.z) []
  simp only [List.nil_append, List.length_nil, List.append_nil, List.append_assoc,
    List.length_append, leBytes_length, Nat.zero_add] at h1 h2
  rw [mnRT, writeMaterialNode]
  rw [show ([] |> wVec3 n.rgb |> wU16 (mnData n)) =
    leBytes 4 n.rgb.x ++ (leBytes 4 n.rgb.y ++ (leBytes 4 n.rgb.z ++ leBytes 2 (mnData n))) from by
      simp [wVec3, wU16]]
  rw [readMaterialNode]
  rw [h1, Option.some_bind, h2, Option.some_bind]
  dsimp only
  rw [Option.map_some']

/-- C7: a material node with `textured = false` round-trips to
`textured = false, texture_id = 0` whatever its pre-encode `texture_id` was;
a textured node with id in `[0, 32767]` (and in-range f32 patterns)
round-trips unchanged. -/
theorem c7_material_node_roundtrip (n : MaterialNode) :
    (n.textured = false →
      mnRT n = some ⟨⟨n.rgb.x % 2 ^ 32, n.rgb.y % 2 ^ 32, n.rgb.z % 2 ^ 32⟩, false, 0⟩) ∧
    (n.textured = true → 0 ≤ n.texture_id → n.texture_id ≤ 32767 →
      n.rgb.x < 2 ^ 32 → n.rgb.y < 2 ^ 32 → n.rgb.z < 2 ^ 32 →
      mnRT n = some n) := by
  constructor
  · intro ht
    rw [mnRT_eq]
    rw [show mnData n = 0 from by rw [mnData, ht]; rfl]
    rfl
  · intro ht h0 h1 hx hy hz
    have htn : (n.texture_id.toNat : Int) = n.texture_id := Int.toNat_of_nonneg h0
    have hlt : n.texture_id.toNat < 2 ^ 15 := by omega
    have hd : mnData n = 2 ^ 15 + n.texture_id.toNat := by
      rw [mnData, ht, if_pos rfl]
      rw [show n.texture_id % (2 ^ 15 : Int) = n.texture_id from
        Int.emod_eq_of_lt h0 (by norm_num; omega)]
      have := lor_pow_mul_add 1 n.texture_id.toNat 15 hlt
      simpa [Nat.shiftLeft_eq] using this
    rw [mnRT_eq, hd]
    rw [Nat.mod_eq_of_lt (show 2 ^ 15 + n.texture_id.toNat < 2 ^ 16 from by omega)]
    rw [show (2 ^ 15 + n.texture_id.toNat) >>> 15 = 1 from by
      rw [Nat.shiftRight_eq_div_pow]; omega]
    rw [show (2 ^ 15 + n.texture_id.toNat) &&& 0x7FFF = n.texture_id.toNat from by
      rw [show (0x7FFF : Nat) = 2 ^ 15 - 1 from rfl, Nat.and_pow_two_sub_one_eq_mod]
      omega]
    rw [Nat.mod_eq_of_lt hx, Nat.mod_eq_of_lt hy, Nat.mod_eq_of_lt hz]
    rw [show ((1 : Nat) != 0) = true from rfl]
    rw [if_pos rfl]
    rw [htn]
    rw [show ({ x := n.rgb.x, y := n.rgb.y, z := n.rgb.z } : Vec3) = n.rgb from rfl]
    rw [← ht]

/-- Witness for C7 at two concrete nodes: an untextured node carrying a stale
`texture_id = 5` decodes with id 0, and a textured node with id 0x1234
round-trips exactly. -/
theorem c7_material_node_roundtrip_witness :
    mnRT ⟨⟨oneF32, 0, 0⟩, false, 5⟩ = some ⟨⟨oneF32, 0, 0⟩, false, 0⟩ ∧
    mnRT ⟨⟨oneF32, 0, 0⟩, true, 0x1234⟩ = some ⟨⟨oneF32, 0, 0⟩, true, 0x1234⟩ :=
  ⟨(c7_material_node_roundtrip ⟨⟨oneF32, 0, 0⟩, false, 5⟩).1 rfl,
    (c7_material_node_roundtrip ⟨⟨oneF32, 0, 0⟩, true, 0x1234⟩).2 rfl (by decide) (by decide)
      (by decide) (by decide) (by decide)⟩

/-! ## C3: the decoded checksum is the CRC-32 of the encoded block stream -/

/-- C3: whenever `read_from_bytes` succeeds on the encoder's output (with the
external decompressor inverting the compressor when the compressed flag is
set), the checksum stored on the decoded `File` is the CRC-32, seed 0, of the
uncompressed block-stream bytes the encoder produced — the bytes after the
4-byte magic and 12-byte packed header, after decompression when compressed. -/
theorem c3_checksum_of_roundtrip {β : Type} (sigOf : β → Nat) (R : Registry β)
    (C D : List Nat → Option (List Nat)) (f : FileR β) (bytes : List Nat) (f' : FileR β)
    (hCD : ∀ x y, C x = some y → D y = some x)
    (henc : encodeFile sigOf R C f = some bytes)
    (hdec : readFromBytes R D bytes = some f') :
    f'.checksum = crc32 0 (writeBlocks sigOf R f.blocks) := by
  cases hcomp : f.header.compressed with
  | false =>
    rw [encodeFile_uncompressed sigOf R C f hcomp] at henc
    injection henc with henc
    subst henc
    rw [readFromBytes_uncompressed R D f.header _ hcomp] at hdec
    rcases hrb : readBlocks R (⟨leBytes 4 UMBF_MAGIC ++ packHeaderBytes f.header ++
        writeBlocks sigOf R f.blocks, 16⟩ : RStream) with _ | p
    · rw [hrb] at hdec
      simp at hdec
    · rw [hrb] at hdec
      rw [Option.map_some'] at hdec
      injection hdec with hdec
      rw [← hdec]
  | true =>
    rw [encodeFile] at henc
    rw [if_pos hcomp] at henc
    rw [Option.map_eq_some'] at henc
    obtain ⟨y, hCy, hby⟩ := henc
    subst hby
    have hD := hCD _ _ hCy
    rw [show leBytes 4 UMBF_MAGIC ++ packHeaderBytes f.header ++ y =
      leBytes 4 UMBF_MAGIC ++ packHeaderBytes f.header ++ y from rfl] at hdec
    rw [readFromBytes_compressed R D f.header y _ hcomp hD] at hdec
    rcases hrb : readBlocks R (⟨writeBlocks sigOf R f.blocks, 0⟩ : RStream) with _ | p
    · rw [hrb] at hdec
      simp at hdec
    · rw [hrb] at hdec
      rw [Option.map_some'] at hdec
      injection hdec with hdec
      rw [← hdec]

/-- Concrete inputs for the C3 witness: an uncompressed raw-typed file with
one material-range block. -/
def c3file : FileR BlockV := ⟨⟨1, 2, 0x4D4D, 3, false⟩, [.matRange 7 [5, 6]], 0⟩

def c3bytes : List Nat :=
  leBytes 4 UMBF_MAGIC ++ packHeaderBytes c3file.header ++
    writeBlocks sigOfBlock stdRegistry c3file.blocks

def c3dec : FileR BlockV :=
  ⟨⟨1, 2, 0x4D4D, 3, false⟩, [.matRange 7 [5, 6]],
    crc32 0 (writeBlocks sigOfBlock stdRegistry c3file.blocks)⟩

set_option maxRecDepth 10000 in
/-- Witness for C3 at the concrete file. -/
theorem c3_checksum_of_roundtrip_witness :
    c3dec.checksum = crc32 0 (writeBlocks sigOfBlock stdRegistry c3file.blocks) :=
  c3_checksum_of_roundtrip sigOfBlock stdRegistry some some c3file c3bytes c3dec
    (fun x y h => by cases h; rfl) (by rfl) (by decide)

/-! ## C10: `Registry::init` takes `blocks.front()` of a decoded library file -/

/-- The per-file path of `Registry::init` after a successful load: when the
header's `type_sign` is `library` (`0x1A2C`), the code unconditionally
evaluates `asset->blocks.front()`; `head?` returning `none` is the `front()`
call on an empty vector (undefined behaviour in the source). -/
def registryInitFront {β : Type} (f : FileR β) : Option β :=
  if f.header.type_sign = 0x1A2C then f.blocks.head? else none

/-- Wire bytes of a library-typed, uncompressed file whose block stream is
just the terminator — exactly what the encoder emits for an empty block list. -/
def c10bytes : List Nat :=
  leBytes 4 UMBF_MAGIC ++ packHeaderBytes ⟨0, 0, 0x1A2C, 0, false⟩ ++ leBytes 8 0

def c10file : FileR BlockV := ⟨⟨0, 0, 0x1A2C, 0, false⟩, [], crc32 0 (leBytes 8 0)⟩

set_option maxRecDepth 10000 in
/-- C10: `read_from_bytes` accepts a library-typed file with an empty block
list (only a warning is logged), and `Registry::init`'s unconditional
`blocks.front()` is then evaluated on an empty vector. -/
theorem c10_init_front_on_empty_blocks :
    readFromBytes stdRegistry some c10bytes = some c10file ∧
    c10file.header.type_sign = 0x1A2C ∧
    c10file.blocks = [] ∧
    registryInitFront c10file = none := by
  refine ⟨by decide, rfl, rfl, rfl⟩

/-! ## C2: what `writeMesh` puts between the size fields and the vertex data -/

/-- A mesh with a single vertex at position `1.0f` (bit pattern `oneF32`);
no groups, faces, indices or barycentrics; default transform. -/
def c1mesh : MeshData :=
  ⟨[⟨⟨oneF32, 0, 0⟩, ⟨0, 0⟩, zeroV3⟩], [], [], [], zeroV3, zeroV3, [], defaultTransform, 0⟩

/-- An uncompressed raw-typed file holding the single mesh block. -/
def c1file : FileR BlockV := ⟨⟨0, 0, 0x4D4D, 0, false⟩, [.mesh c1mesh], 0⟩

def c1bytes : List Nat := (encodeFile sigOfBlock stdRegistry some c1file).getD []

set_option maxRecDepth 100000 in
/-- C1 (code bug, evaluated at the failing input): `writeMesh` emits a
96-byte payload, but `readMesh` stops after the AABB having consumed only 60
bytes — the 36 transform bytes are never read — and it never deserializes
vertex positions; decoding the encoder's own output therefore yields a file
whose block list differs from the original (the vertex position is zeroed),
refuting `decode(encode(file)) == file` for registered-only block lists. -/
theorem c1_mesh_roundtrip_bug :
    (writeMesh c1mesh).length = 96 ∧
    (readMesh ⟨writeMesh c1mesh, 0⟩).map (fun p => p.2.pos) = some 60 ∧
    (readFromBytes stdRegistry some c1bytes).isSome = true ∧
    (readFromBytes stdRegistry some c1bytes).map FileR.blocks ≠ some c1file.blocks := by
  refine ⟨by decide, by decide, by decide, by decide⟩

/-! ## C9: the loop resumes wherever the decoder's cursor ended -/

/-- C9: one unfolding of the block-read loop at a registered frame: after the
`u64` size and `u32` signature reads, the registered codec's reader runs and
the loop continues from the reader's final stream `s₃` — whatever it is; the
loop performs no repositioning to `block_size` past the frame header, so frame
alignment holds only as long as every registered decoder consumes exactly its
`block_size` bytes. -/
theorem c9_cursor_after_decoder {β : Type} (R : Registry β) (fuel : Nat) (s : RStream)
    (bsize sig : Nat) (s₁ s₂ s₃ : RStream) (c : Codec β) (r : Option β)
    (hpos : s.pos < s.data.length)
    (h64 : readU64 s = some (bsize, s₁)) (hnz : bsize ≠ 0)
    (h32 : readU32 s₁ = some (sig, s₂))
    (hc : R sig = some c)
    (hr : c.read s₂ = some (r, s₃)) :
    (r = none → readBlocksFuel R (fuel + 1) s = readBlocksFuel R fuel s₃) ∧
    (∀ b, r = some b →
      readBlocksFuel R (fuel + 1) s =
        (readBlocksFuel R fuel s₃).map fun x => (b :: x.1, x.2)) := by
  constructor
  · intro h
    subst h
    rw [readBlocksFuel, if_pos hpos, h64, Option.some_bind, if_neg hnz, h32,
      Option.some_bind, hc]
    dsimp only
    rw [hr, Option.some_bind]
  · intro b h
    subst h
    rw [readBlocksFuel, if_pos hpos, h64, Option.some_bind, if_neg hnz, h32,
      Option.some_bind, hc]
    dsimp only
    rw [hr, Option.some_bind]

/-- A registry whose only codec consumes zero bytes and returns block `1`. -/
def lazyRegistry : Registry Nat := fun _ => some ⟨fun s => some (some 1, s), fun _ => []⟩

/-- One frame declaring one payload byte, then the terminator. -/
def c9data : List Nat := leBytes 8 1 ++ leBytes 4 5 ++ [7] ++ leBytes 8 0

/-- Witness for C9: with the zero-byte decoder the loop resumes at position
12 (where the decoder stopped), not at 13 (the frame's payload end). -/
theorem c9_cursor_after_decoder_witness :
    readBlocksFuel lazyRegistry 3 ⟨c9data, 0⟩ =
      (readBlocksFuel lazyRegistry 2 ⟨c9data, 12⟩).map fun x => (1 :: x.1, x.2) :=
  (c9_cursor_after_decoder lazyRegistry 2 ⟨c9data, 0⟩ 1 5 ⟨c9data, 8⟩ ⟨c9data, 12⟩
    ⟨c9data, 12⟩ ⟨fun s => some (some 1, s), fun _ => []⟩ (some 1)
    (by decide) (by decide) (by decide) (by decide) rfl rfl).2 1 rfl

/-! ## C4: unknown signatures are skipped and decoding continues -/

theorem decodedBlocks_append {β : Type} (xs ys : List (Option (Option β))) :
    decodedBlocks (xs ++ ys) = decodedBlocks xs ++ decodedBlocks ys := by
  induction xs with
  | nil => rfl
  | cons x xs ih =>
    rcases x with _ | r
    · simpa [decodedBlocks] using ih
    · rcases r with _ | b
      · simpa [decodedBlocks] using ih
      · simp [decodedBlocks, ih]

/-- No frame list encodes to fewer bytes than it has frames. -/
theorem frames_length_le (frs : List (Nat × List Nat)) :
    frs.length ≤ (framesBytes frs).length := by
  induction frs with
  | nil => simp [framesBytes, leBytes_length]
  | cons fr frs ih =>
    rw [framesBytes_cons, List.length_append, frameBytes_length, List.length_cons]
    omega

/-- `readBlocks` (the fueled loop at its entry-point fuel) on an encoded frame
list: the framing lemma specialised to the buffer `pre ++ framesBytes frs`. -/
theorem readBlocks_frames {β : Type} (R : Registry β) (frs : List (Nat × List Nat))
    (obs : List (Option (Option β))) (pre : List Nat)
    (hfa : List.Forall₂ (fun fr ob => WFFrame fr ∧ FrameAction R fr ob) frs obs) :
    readBlocks R ⟨pre ++ framesBytes frs, pre.length⟩ =
      some (decodedBlocks obs,
        ⟨pre ++ framesBytes frs, pre.length + (framesBytes frs).length⟩) := by
  have h := readBlocksFuel_frames R frs obs pre []
    ((pre ++ framesBytes frs).length + 1)
    (by
      have := frames_length_le frs
      simp only [List.length_append]
      omega)
    hfa
  simp only [List.append_nil] at h
  exact h

/-- C4: on an uncompressed file whose block stream is some frames `frsA`, then
a frame `u` whose signature is not in the registry, then frames `frsB` (all
well-formed, the registered ones decoded by their codecs), `read_from_bytes`
succeeds and returns exactly the blocks of `frsA` and `frsB` in order: the
unknown frame is skipped by `shift(block_size)` and dropped, never fatal. -/
theorem c4_unknown_block_skipped {β : Type} (R : Registry β)
    (D : List Nat → Option (List Nat)) (h : Header)
    (frsA frsB : List (Nat × List Nat)) (u : Nat × List Nat)
    (obsA obsB : List (Option (Option β)))
    (hcmp : h.compressed = false)
    (hwfu : WFFrame u) (hu : R u.1 = none)
    (hA : List.Forall₂ (fun fr ob => WFFrame fr ∧ FrameAction R fr ob) frsA obsA)
    (hB : List.Forall₂ (fun fr ob => WFFrame fr ∧ FrameAction R fr ob) frsB obsB) :
    readFromBytes R D
        (leBytes 4 UMBF_MAGIC ++ packHeaderBytes h ++ framesBytes (frsA ++ u :: frsB)) =
      some ⟨maskHeader h, decodedBlocks obsA ++ decodedBlocks obsB,
        crc32 0 (framesBytes (frsA ++ u :: frsB))⟩ := by
  have hfa : List.Forall₂ (fun fr ob => WFFrame fr ∧ FrameAction R fr ob)
      (frsA ++ u :: frsB) (obsA ++ none :: obsB) :=
    List.rel_append hA (List.Forall₂.cons ⟨hwfu, hu⟩ hB)
  have hrb := readBlocks_frames R (frsA ++ u :: frsB) (obsA ++ none :: obsB)
    (leBytes 4 UMBF_MAGIC ++ packHeaderBytes h) hfa
  rw [show (leBytes 4 UMBF_MAGIC ++ packHeaderBytes h).length = 16 from by
    simp [leBytes_length, packHeaderBytes_length]] at hrb
  rw [readFromBytes_uncompressed R D h _ hcmp, hrb, Option.map_some']
  simp [decodedBlocks_append, decodedBlocks]

/-- A registry with a single codec at signature `1` that reads exactly one
byte and wraps it as the block. -/
def oneByteCodec : Codec Nat :=
  ⟨fun s => (readU8 s).map fun p => (some p.1, p.2), fun b => [b % 256]⟩

def c4Registry : Registry Nat := fun sig => if sig = 1 then some oneByteCodec else none

theorem oneByte_frameAction (v : Nat) (hv : v < 2 ^ 8) :
    FrameAction c4Registry (1, [v]) (some (some v)) := by
  refine ⟨oneByteCodec, rfl, fun pre post => ?_⟩
  have h := readU8_parses v pre post
  rw [show leBytes 1 v = [v] from by
    simp only [leBytes]
    rw [Nat.mod_eq_of_lt (show v < 256 from hv)]] at h
  show (readU8 _).map _ = _
  rw [h, Option.map_some']
  rw [Nat.mod_eq_of_lt hv]

def c4hdr : Header := ⟨0, 0, 3, 1, false⟩

def c4frames : List (Nat × List Nat) := [(1, [7]), (2, [9, 9]), (1, [8])]

/-- Witness for C4: two registered one-byte frames around an unknown frame of
signature `2`; decode succeeds and keeps blocks `7` and `8` in order. -/
theorem c4_unknown_block_skipped_witness :
    readFromBytes c4Registry some
        (leBytes 4 UMBF_MAGIC ++ packHeaderBytes c4hdr ++ framesBytes c4frames) =
      some ⟨maskHeader c4hdr, [7, 8], crc32 0 (framesBytes c4frames)⟩ := by
  have h := c4_unknown_block_skipped c4Registry some c4hdr
    [(1, [7])] [(1, [8])] (2, [9, 9])
    [some (some 7)] [some (some 8)]
    rfl
    ⟨by norm_num, by norm_num, by norm_num⟩
    rfl
    (List.Forall₂.cons ⟨⟨by norm_num, by norm_num, by norm_num⟩,
      oneByte_frameAction 7 (by norm_num)⟩ List.Forall₂.nil)
    (List.Forall₂.cons ⟨⟨by norm_num, by norm_num, by norm_num⟩,
      oneByte_frameAction 8 (by norm_num)⟩ List.Forall₂.nil)
  simpa [decodedBlocks, c4frames] using h

/-! ## C5: a null decoder result is dropped, but a decoder throw is fatal -/

/-- If the loop reaches a well-formed frame whose registered codec throws
(reader returns `none`) after a run of well-behaved frames, the whole block
read fails: the exception propagates out of the loop. -/
theorem readBlocksFuel_frames_throw {β : Type} (R : Registry β)
    (frsA : List (Nat × List Nat)) (obsA : List (Option (Option β)))
    (t : Nat × List Nat) (ct : Codec β) (pre post : List Nat) (fuel : Nat)
    (hfuel : frsA.length < fuel)
    (hfa : List.Forall₂ (fun fr ob => WFFrame fr ∧ FrameAction R fr ob) frsA obsA)
    (hwft : WFFrame t) (hct : R t.1 = some ct)
    (hthrow : ∀ pre' post' : List Nat,
      ct.read ⟨pre' ++ t.2 ++ post', pre'.length⟩ = none) :
    readBlocksFuel R fuel ⟨pre ++ framesBytes (frsA ++ [t]) ++ post, pre.length⟩ = none := by
  induction hfa generalizing pre fuel with
  | nil =>
    match fuel, hfuel with
    | f + 1, _ =>
      obtain ⟨hlen1, hlen64, hsig⟩ := hwft
      have h64 := readU64_parses t.2.length pre
        (leBytes 4 t.1 ++ t.2 ++ framesBytes [] ++ post)
      have h32 := readU32_parses t.1 (pre ++ leBytes 8 t.2.length)
        (t.2 ++ framesBytes [] ++ post)
      have hcr := hthrow (pre ++ leBytes 8 t.2.length ++ leBytes 4 t.1)
        (framesBytes [] ++ post)
      simp only [List.nil_append, framesBytes_cons, frameBytes, List.append_assoc,
        List.length_append, leBytes_length, Nat.mod_eq_of_lt hlen64,
        Nat.mod_eq_of_lt hsig] at h64 h32 hcr ⊢
      rw [readBlocksFuel]
      rw [if_pos (by simp only [List.length_append, leBytes_length]; omega)]
      rw [h64, Option.some_bind]
      rw [if_neg (by omega : ¬t.2.length = 0)]
      rw [show pre.length + (8 + 4) = pre.length + 8 + 4 from by omega] at h32
      rw [h32, Option.some_bind]
      rw [hct]
      rw [show pre.length + (8 + 4) = pre.length + 8 + 4 from by omega] at hcr
      show (ct.read _).bind _ = _
      rw [hcr, Option.none_bind]
  | cons hpair hrest ih =>
    rename_i fr ob frsA' obsA'
    match fuel, hfuel with
    | f + 1, hfuel =>
      rw [List.length_cons] at hfuel
      obtain ⟨⟨hlen1, hlen64, hsig⟩, hact⟩ := hpair
      have h64 := readU64_parses fr.2.length pre
        (leBytes 4 fr.1 ++ fr.2 ++ framesBytes (frsA' ++ [t]) ++ post)
      have h32 := readU32_parses fr.1 (pre ++ leBytes 8 fr.2.length)
        (fr.2 ++ framesBytes (frsA' ++ [t]) ++ post)
      have ihx := ih (pre ++ leBytes 8 fr.2.length ++ leBytes 4 fr.1 ++ fr.2) f (by omega)
      simp only [List.cons_append, framesBytes_cons, frameBytes, List.append_assoc,
        List.length_append, leBytes_length, Nat.mod_eq_of_lt hlen64,
        Nat.mod_eq_of_lt hsig] at h64 h32 ihx ⊢
      rw [readBlocksFuel]
      rw [if_pos (by simp only [List.length_append, leBytes_length]; omega)]
      rw [h64, Option.some_bind]
      rw [if_neg (by omega : ¬fr.2.length = 0)]
      rw [show pre.length + (8 + 4) = pre.length + 8 + 4 from by omega] at h32
      rw [h32, Option.some_bind]
      rw [show pre.length + (8 + (4 + fr.2.length)) =
          pre.length + 8 + 4 + fr.2.length from by omega] at ihx
      rcases ob with _ | r
      · simp only [FrameAction] at hact
        rw [hact]
        show readBlocksFuel R f (shift fr.2.length _) = _
        rw [shift_mk]
        exact ihx
      · obtain ⟨c, hc, hcread⟩ := hact
        rw [hc]
        have hcr := hcread (pre ++ leBytes 8 fr.2.length ++ leBytes 4 fr.1)
          (framesBytes (frsA' ++ [t]) ++ post)
        simp only [List.append_assoc, List.length_append, leBytes_length] at hcr
        rw [show pre.length + (8 + 4) = pre.length + 8 + 4 from by omega] at hcr
        show (c.read _).bind _ = _
        rw [hcr, Option.some_bind]
        rcases r with _ | b
        · exact ihx
        · show (readBlocksFuel R f _).map _ = _
          rw [ihx]
          rfl

/-- The entry-point wrapper of the throw lemma. -/
theorem readBlocks_frames_throw {β : Type} (R : Registry β)
    (frsA : List (Nat × List Nat)) (obsA : List (Option (Option β)))
    (t : Nat × List Nat) (ct : Codec β) (pre : List Nat)
    (hfa : List.Forall₂ (fun fr ob => WFFrame fr ∧ FrameAction R fr ob) frsA obsA)
    (hwft : WFFrame t) (hct : R t.1 = some ct)
    (hthrow : ∀ pre' post' : List Nat,
      ct.read ⟨pre' ++ t.2 ++ post', pre'.length⟩ = none) :
    readBlocks R ⟨pre ++ framesBytes (frsA ++ [t]), pre.length⟩ = none := by
  have h := readBlocksFuel_frames_throw R frsA obsA t ct pre []
    ((pre ++ framesBytes (frsA ++ [t])).length + 1)
    (by
      have h1 := frames_length_le (frsA ++ [t])
      have h2 : frsA.length < (frsA ++ [t]).length := by
        simp
      simp only [List.length_append]
      omega)
    hfa hwft hct hthrow
  simp only [List.append_nil] at h
  exact h

/-- C5 (amended): the two failure modes differ. A registered decoder that
returns null consuming its frame is non-fatal — the block is dropped and the
file decodes with the remaining blocks; a registered decoder that throws is
fatal — the exception propagates and `read_from_bytes` returns no `File`. -/
theorem c5_null_nonfatal_throw_fatal {β : Type} (R : Registry β)
    (D : List Nat → Option (List Nat)) (h : Header)
    (frsA frsB : List (Nat × List Nat)) (d t : Nat × List Nat)
    (obsA obsB : List (Option (Option β))) (ct : Codec β)
    (hcmp : h.compressed = false)
    (hA : List.Forall₂ (fun fr ob => WFFrame fr ∧ FrameAction R fr ob) frsA obsA)
    (hB : List.Forall₂ (fun fr ob => WFFrame fr ∧ FrameAction R fr ob) frsB obsB)
    (hwfd : WFFrame d) (hdnull : FrameAction R d (some none))
    (hwft : WFFrame t) (hct : R t.1 = some ct)
    (hthrow : ∀ pre' post' : List Nat,
      ct.read ⟨pre' ++ t.2 ++ post', pre'.length⟩ = none) :
    readFromBytes R D
        (leBytes 4 UMBF_MAGIC ++ packHeaderBytes h ++ framesBytes (frsA ++ d :: frsB)) =
      some ⟨maskHeader h, decodedBlocks obsA ++ decodedBlocks obsB,
        crc32 0 (framesBytes (frsA ++ d :: frsB))⟩ ∧
    readFromBytes R D
        (leBytes 4 UMBF_MAGIC ++ packHeaderBytes h ++ framesBytes (frsA ++ [t])) = none := by
  constructor
  · have hfa : List.Forall₂ (fun fr ob => WFFrame fr ∧ FrameAction R fr ob)
        (frsA ++ d :: frsB) (obsA ++ some none :: obsB) :=
      List.rel_append hA (List.Forall₂.cons ⟨hwfd, hdnull⟩ hB)
    have hrb := readBlocks_frames R (frsA ++ d :: frsB) (obsA ++ some none :: obsB)
      (leBytes 4 UMBF_MAGIC ++ packHeaderBytes h) hfa
    rw [show (leBytes 4 UMBF_MAGIC ++ packHeaderBytes h).length = 16 from by
      simp [leBytes_length, packHeaderBytes_length]] at hrb
    rw [readFromBytes_uncompressed R D h _ hcmp, hrb, Option.map_some']
    simp [decodedBlocks_append, decodedBlocks]
  · have hrb := readBlocks_frames_throw R frsA obsA t ct
      (leBytes 4 UMBF_MAGIC ++ packHeaderBytes h) hA hwft hct hthrow
    rw [show (leBytes 4 UMBF_MAGIC ++ packHeaderBytes h).length = 16 from by
      simp [leBytes_length, packHeaderBytes_length]] at hrb
    rw [readFromBytes_uncompressed R D h _ hcmp, hrb]
    rfl

/-- A codec whose reader reads one byte but produces a null block. -/
def nullByteCodec : Codec Nat :=
  ⟨fun s => (readU8 s).map fun p => (none, p.2), fun _ => []⟩

/-- A codec whose reader always throws. -/
def throwCodec : Codec Nat := ⟨fun _ => none, fun _ => []⟩

def c5Registry : Registry Nat := fun sig =>
  if sig = 1 then some oneByteCodec
  else if sig = 2 then some nullByteCodec
  else if sig = 3 then some throwCodec
  else none

theorem c5_one_action (v : Nat) (hv : v < 2 ^ 8) :
    FrameAction c5Registry (1, [v]) (some (some v)) := by
  refine ⟨oneByteCodec, rfl, fun pre post => ?_⟩
  have h := readU8_parses v pre post
  rw [show leBytes 1 v = [v] from by
    simp only [leBytes]
    rw [Nat.mod_eq_of_lt (show v < 256 from hv)]] at h
  show (readU8 _).map _ = _
  rw [h, Option.map_some']
  rw [Nat.mod_eq_of_lt hv]

theorem c5_null_action (v : Nat) (hv : v < 2 ^ 8) :
    FrameAction c5Registry (2, [v]) (some none) := by
  refine ⟨nullByteCodec, rfl, fun pre post => ?_⟩
  have h := readU8_parses v pre post
  rw [show leBytes 1 v = [v] from by
    simp only [leBytes]
    rw [Nat.mod_eq_of_lt (show v < 256 from hv)]] at h
  show (readU8 _).map _ = _
  rw [h, Option.map_some']

def c5hdr : Header := ⟨0, 0, 3, 1, false⟩

/-- Bytes of an uncompressed file whose single block has the throwing codec
registered at its signature. -/
def c5bytes : List Nat :=
  leBytes 4 UMBF_MAGIC ++ packHeaderBytes c5hdr ++ framesBytes [(3, [9])]

set_option maxRecDepth 10000 in
/-- Counterexample to the original claim: a registered decoder that throws is
NOT non-fatal — `read_from_bytes` returns no `File` at all. -/
theorem c5_counterexample : readFromBytes c5Registry some c5bytes = none := by decide

/-- Witness for C5 at concrete frames: a one-byte block then a null-decoding
block yields just `[7]`; a one-byte block then a throwing block yields
decode failure. -/
theorem c5_null_nonfatal_throw_fatal_witness :
    readFromBytes c5Registry some
        (leBytes 4 UMBF_MAGIC ++ packHeaderBytes c5hdr ++
          framesBytes [(1, [7]), (2, [5])]) =
      some ⟨maskHeader c5hdr, [7], crc32 0 (framesBytes [(1, [7]), (2, [5])])⟩ ∧
    readFromBytes c5Registry some
        (leBytes 4 UMBF_MAGIC ++ packHeaderBytes c5hdr ++
          framesBytes [(1, [7]), (3, [9])]) = none := by
  have h := c5_null_nonfatal_throw_fatal c5Registry some c5hdr
    [(1, [7])] [] (2, [5]) (3, [9]) [some (some 7)] [] throwCodec
    rfl
    (List.Forall₂.cons ⟨⟨by norm_num, by norm_num, by norm_num⟩,
      c5_one_action 7 (by norm_num)⟩ List.Forall₂.nil)
    List.Forall₂.nil
    ⟨by norm_num, by norm_num, by norm_num⟩ (c5_null_action 5 (by norm_num))
    ⟨by norm_num, by norm_num, by norm_num⟩ rfl (fun _ _ => rfl)
  simpa [decodedBlocks] using h

/-! ## C8: corrupt leaves — encoder refusal and decoder failure -/

/-- Write-side refusal, sized for induction: `writeNode` returns `none`
exactly on trees with a reachable corrupt leaf, and `writeNodeL` likewise for
child lists. -/
theorem writeNode_none_iff_size {β : Type} (sigOf : β → Nat) (R : Registry β) :
    ∀ k : Nat,
      (∀ n : LibNode β, nodeSize n ≤ k →
        (writeNode sigOf R n = none ↔ hasCorrupt n = true)) ∧
      (∀ cs : List (LibNode β), listSizeN cs ≤ k →
        (writeNodeL sigOf R cs = none ↔ hasCorruptL cs = true)) := by
  intro k
  induction k with
  | zero =>
    constructor
    · intro n hn
      cases n with
      | node name isF ch asset => simp [nodeSize] at hn
    · intro cs hcs
      cases cs with
      | nil => simp [writeNodeL, hasCorruptL]
      | cons c cs => simp [listSizeN] at hcs
  | succ k ih =>
    constructor
    · intro n hn
      cases n with
      | node name isF ch asset =>
        rw [writeNode, hasCorrupt]
        by_cases hch : ch.length % 2 ^ 16 > 0
        · rw [if_pos hch, if_pos hch, Option.map_eq_none']
          exact ih.2 ch (by simp only [nodeSize, listSizeN] at hn ⊢; omega)
        · rw [if_neg hch, if_neg hch]
          cases isF with
          | true => simp
          | false =>
            by_cases hts : asset.header.type_sign = 0
            · simp [hts]
            · simp [hts]
    · intro cs hcs
      cases cs with
      | nil => simp [writeNodeL, hasCorruptL]
      | cons c cs =>
        have h1 := ih.1 c (by simp only [listSizeN] at hcs; omega)
        have h2 := ih.2 cs (by simp only [listSizeN] at hcs; omega)
        rw [writeNodeL, hasCorruptL, Bool.or_eq_true, ← h1, ← h2]
        cases hwc : writeNode sigOf R c with
        | none => simp [hwc]
        | some b =>
          cases hwcs : writeNodeL sigOf R cs with
          | none => simp [hwc, hwcs]
          | some bs => simp [hwc, hwcs]

/-- `readBlocks` on a bare terminator: consumes the 8 zero bytes. -/
theorem readBlocks_terminator {β : Type} (R : Registry β) (pre post : List Nat) :
    readBlocks R ⟨pre ++ leBytes 8 0 ++ post, pre.length⟩ =
      some ([], ⟨pre ++ leBytes 8 0 ++ post, pre.length + 8⟩) := by
  have h := readBlocksFuel_frames R [] [] pre post
    ((pre ++ leBytes 8 0 ++ post).length + 1) (by simp) List.Forall₂.nil
  simpa [readBlocks, framesBytes, decodedBlocks, leBytes_length] using h

/-- One unfolding step of the node reader: the name, folder byte and child
count are consumed, leaving the branch on the child count. -/
theorem readNodeF_unfold {β : Type} (R : Registry β) (f : Nat) (name : List Nat)
    (b cnt : Nat) (rest pre post : List Nat)
    (hname : name.length < 2 ^ 32) (hb : b < 2 ^ 8) (hcnt : cnt < 2 ^ 16) :
    readNodeF R (f + 1)
        ⟨pre ++ (leBytes 4 name.length ++ name ++ leBytes 1 b ++ leBytes 2 cnt ++ rest) ++ post,
          pre.length⟩ =
      (if cnt > 0 then
        (readNodeLF R f cnt
            ⟨pre ++ (leBytes 4 name.length ++ name ++ leBytes 1 b ++ leBytes 2 cnt ++ rest) ++ post,
              pre.length + (4 + name.length) + 1 + 2⟩).bind fun pch =>
          some (.node name (b != 0) pch.1 (defaultFileR β), pch.2)
      else if b != 0 then
        some (.node name true [] (defaultFileR β),
          ⟨pre ++ (leBytes 4 name.length ++ name ++ leBytes 1 b ++ leBytes 2 cnt ++ rest) ++ post,
            pre.length + (4 + name.length) + 1 + 2⟩)
      else
        (readBytes 12
            ⟨pre ++ (leBytes 4 name.length ++ name ++ leBytes 1 b ++ leBytes 2 cnt ++ rest) ++ post,
              pre.length + (4 + name.length) + 1 + 2⟩).bind fun ph =>
          (readBlocks R ph.2).bind fun pb =>
            if (unpackHeader ph.1).type_sign = 0 then none
            else some (.node name false [] ⟨unpackHeader ph.1, pb.1, 0⟩, pb.2)) := by
  have hstr := readString_parses name hname pre
    (leBytes 1 b ++ leBytes 2 cnt ++ rest ++ post)
  have h8 := readU8_parses b (pre ++ leBytes 4 name.length ++ name)
    (leBytes 2 cnt ++ rest ++ post)
  have h16 := readU16_parses cnt (pre ++ leBytes 4 name.length ++ name ++ leBytes 1 b)
    (rest ++ post)
  simp only [List.append_assoc, List.length_append, leBytes_length,
    Nat.mod_eq_of_lt hb, Nat.mod_eq_of_lt hcnt] at hstr h8 h16 ⊢
  rw [readNodeF]
  rw [hstr, Option.some_bind]
  dsimp only
  rw [h8, Option.some_bind]
  dsimp only
  rw [show pre.length + (4 + (name.length + 1)) =
    pre.length + (4 + name.length) + 1 from by omega] at h16
  rw [h16, Option.some_bind]

/-- Decode-side characterization, sized for induction: on the unchecked
serialization of a well-formed tree, the node reader fails exactly on trees
with a reachable corrupt leaf, and otherwise reconstructs `readBack` while
consuming exactly the serialized bytes. -/
theorem readNodeF_writeNodeU_size {β : Type} (sigOf : β → Nat) (R : Registry β) :
    ∀ k : Nat,
      (∀ n : LibNode β, nodeSize n ≤ k → wfNode n = true →
        ∀ pre post : List Nat, ∀ fuel : Nat, nodeSize n ≤ fuel →
          readNodeF R fuel ⟨pre ++ writeNodeU sigOf R n ++ post, pre.length⟩ =
            if hasCorrupt n then none
            else some (readBack n, ⟨pre ++ writeNodeU sigOf R n ++ post,
              pre.length + (writeNodeU sigOf R n).length⟩)) ∧
      (∀ cs : List (LibNode β), listSizeN cs ≤ k → wfNodeL cs = true →
        ∀ pre post : List Nat, ∀ fuel : Nat, listSizeN cs ≤ fuel →
          readNodeLF R fuel cs.length ⟨pre ++ writeNodeUL sigOf R cs ++ post, pre.length⟩ =
            if hasCorruptL cs then none
            else some (readBackL cs, ⟨pre ++ writeNodeUL sigOf R cs ++ post,
              pre.length + (writeNodeUL sigOf R cs).length⟩)) := by
  intro k
  induction k with
  | zero =>
    constructor
    · intro n hn
      cases n with
      | node name isF ch asset => simp [nodeSize] at hn
    · intro cs hcs hwf pre post fuel hfuel
      cases cs with
      | nil => simp [readNodeLF, writeNodeUL, hasCorruptL, readBackL, listSizeN]
      | cons c cs => simp [listSizeN] at hcs
  | succ k ih =>
    constructor
    · intro n hn hwf pre post fuel hfuel
      cases n with
      | node name isF ch asset =>
        cases fuel with
        | zero => simp [nodeSize] at hfuel
        | succ f =>
        simp only [nodeSize] at hn hfuel
        simp only [wfNode, Bool.and_eq_true, decide_eq_true_eq, List.isEmpty_iff] at hwf
        obtain ⟨⟨⟨⟨hname, hch⟩, hts⟩, hbl⟩, hwfch⟩ := hwf
        by_cases hch0 : 0 < ch.length
        · have hwu : writeNodeU sigOf R (LibNode.node name isF ch asset) =
              leBytes 4 name.length ++ name ++ leBytes 1 (if isF then 1 else 0) ++
                leBytes 2 ch.length ++ writeNodeUL sigOf R ch := by
            simp only [writeNodeU, wString, wU8, wU16, List.nil_append]
            rw [if_pos (show ch.length % 2 ^ 16 > 0 from by
              rw [Nat.mod_eq_of_lt hch]; omega)]
          rw [hwu]
          rw [readNodeF_unfold R f name (if isF then 1 else 0) ch.length
            (writeNodeUL sigOf R ch) pre post hname (by cases isF <;> norm_num) hch]
          rw [if_pos hch0]
          have ihl := ih.2 ch (by omega) hwfch
            (pre ++ leBytes 4 name.length ++ name ++ leBytes 1 (if isF then 1 else 0) ++
              leBytes 2 ch.length) post f (by omega)
          simp only [List.append_assoc, List.length_append, leBytes_length] at ihl ⊢
          rw [show pre.length + (4 + (name.length + (1 + 2))) =
            pre.length + (4 + name.length) + 1 + 2 from by omega] at ihl
          rw [ihl]
          rw [show hasCorrupt (LibNode.node name isF ch asset) = hasCorruptL ch from by
            rw [hasCorrupt]
            rw [if_pos (show ch.length % 2 ^ 16 > 0 from by
              rw [Nat.mod_eq_of_lt hch]; omega)]]
          rw [show readBack (LibNode.node name isF ch asset) =
              LibNode.node name isF (readBackL ch) (defaultFileR β) from by
            rw [readBack, if_pos hch0]]
          by_cases hcor : hasCorruptL ch = true
          · rw [if_pos hcor, if_pos hcor, Option.none_bind]
          · rw [if_neg hcor, if_neg hcor, Option.some_bind]
            dsimp only
            simp only [Option.some.injEq, Prod.mk.injEq, RStream.mk.injEq,
              LibNode.node.injEq, true_and]
            exact ⟨⟨by cases isF <;> rfl, trivial⟩, by omega⟩
        · have hchnil : ch = [] := List.length_eq_zero.mp (by omega)
          subst hchnil
          cases isF with
          | true =>
            have hwu : writeNodeU sigOf R (LibNode.node name true [] asset) =
                leBytes 4 name.length ++ name ++ leBytes 1 1 ++ leBytes 2 0 := rfl
            rw [hwu]
            rw [show (leBytes 4 name.length ++ name ++ leBytes 1 1 ++ leBytes 2 0 : List Nat) =
              leBytes 4 name.length ++ name ++ leBytes 1 1 ++ leBytes 2 0 ++ [] from
              (List.append_nil _).symm]
            rw [readNodeF_unfold R f name 1 0 [] pre post hname (by norm_num) (by norm_num)]
            rw [if_neg (show ¬((0 : Nat) > 0) from by norm_num)]
            rw [if_pos (show ((1 : Nat) != 0) = true from rfl)]
            rw [show hasCorrupt (LibNode.node name true [] asset) = false from rfl]
            rw [show readBack (LibNode.node name true [] asset) =
                LibNode.node name true [] (defaultFileR β) from rfl]
            simp only [Bool.false_eq_true, if_false, List.append_assoc, List.append_nil,
              List.length_append, leBytes_length, Option.some.injEq, Prod.mk.injEq,
              RStream.mk.injEq, true_and]
            omega
          | false =>
            have hwu : writeNodeU sigOf R (LibNode.node name false [] asset) =
                leBytes 4 name.length ++ name ++ leBytes 1 0 ++ leBytes 2 0 ++
                  (packHeaderBytes asset.header ++ leBytes 8 0) := by
              rw [show writeNodeU sigOf R (LibNode.node name false [] asset) =
                leBytes 4 name.length ++ name ++ leBytes 1 0 ++ leBytes 2 0 ++
                  packHeaderBytes asset.header ++ writeBlocks sigOf R asset.blocks from rfl]
              rw [hbl]
              rw [show writeBlocks sigOf R ([] : List β) = leBytes 8 0 from rfl]
              simp [List.append_assoc]
            rw [hwu]
            rw [readNodeF_unfold R f name 0 0
              (packHeaderBytes asset.header ++ leBytes 8 0) pre post hname
              (by norm_num) (by norm_num)]
            rw [if_neg (show ¬((0 : Nat) > 0) from by norm_num)]
            rw [if_neg (show ¬(((0 : Nat) != 0) = true) from by decide)]
            simp only [List.append_assoc]
            have hph := readBytes_parses (packHeaderBytes asset.header) 12
              (packHeaderBytes_length _)
              (pre ++ leBytes 4 name.length ++ name ++ leBytes 1 0 ++ leBytes 2 0)
              (leBytes 8 0 ++ post)
            simp only [List.append_assoc, List.length_append, leBytes_length,
              packHeaderBytes_length] at hph
            rw [show pre.length + (4 + (name.length + (1 + 2))) =
              pre.length + (4 + name.length) + 1 + 2 from by omega] at hph
            rw [hph, Option.some_bind]
            dsimp only
            have hterm := readBlocks_terminator R
              (pre ++ leBytes 4 name.length ++ name ++ leBytes 1 0 ++ leBytes 2 0 ++
                packHeaderBytes asset.header) post
            simp only [List.append_assoc, List.length_append, leBytes_length,
              packHeaderBytes_length] at hterm
            rw [show pre.length + (4 + (name.length + (1 + (2 + 12)))) =
              pre.length + (4 + name.length) + 1 + 2 + 12 from by omega] at hterm
            rw [hterm, Option.some_bind]
            dsimp only
            rw [unpack_pack_header]
            rw [show (maskHeader asset.header).type_sign = asset.header.type_sign from by
              simp only [maskHeader]; omega]
            rw [show hasCorrupt (LibNode.node name false [] asset) =
                (asset.header.type_sign == 0) from rfl]
            rw [show readBack (LibNode.node name false [] asset) =
                LibNode.node name false [] ⟨maskHeader asset.header, [], 0⟩ from rfl]
            by_cases hts0 : asset.header.type_sign = 0
            · rw [if_pos hts0]
              simp [hts0]
            · rw [if_neg hts0]
              rw [if_neg (by simp [hts0])]
              simp only [List.append_assoc, List.length_append, leBytes_length,
                packHeaderBytes_length, Option.some.injEq, Prod.mk.injEq,
                RStream.mk.injEq, true_and]
              omega
    · intro cs hcs hwf pre post fuel hfuel
      cases cs with
      | nil => simp [readNodeLF, writeNodeUL, hasCorruptL, readBackL, listSizeN]
      | cons c cs =>
        cases fuel with
        | zero => simp [listSizeN] at hfuel
        | succ g =>
        simp only [listSizeN] at hcs hfuel
        simp only [wfNodeL, Bool.and_eq_true] at hwf
        obtain ⟨hwfc, hwfcs⟩ := hwf
        rw [show (c :: cs).length = cs.length + 1 from rfl]
        rw [readNodeLF]
        rw [show writeNodeUL sigOf R (c :: cs) =
          writeNodeU sigOf R c ++ writeNodeUL sigOf R cs from rfl]
        have ihn := ih.1 c (by omega) hwfc pre (writeNodeUL sigOf R cs ++ post) g (by omega)
        simp only [List.append_assoc, List.length_append] at ihn ⊢
        rw [ihn]
        rw [show hasCorruptL (c :: cs) = (hasCorrupt c || hasCorruptL cs) from rfl]
        by_cases hcor : hasCorrupt c = true
        · rw [if_pos hcor, Option.none_bind, if_pos (by simp [hcor])]
        · rw [if_neg hcor, Option.some_bind]
          dsimp only
          have ihl := ih.2 cs (by omega) hwfcs (pre ++ writeNodeU sigOf R c) post g (by omega)
          simp only [List.append_assoc, List.length_append] at ihl
          rw [ihl]
          by_cases hcors : hasCorruptL cs = true
          · rw [if_pos hcors, Option.none_bind, if_pos (by simp [hcors])]
          · rw [if_neg hcors, Option.some_bind]
            rw [if_neg (by simp [hcor, hcors])]
            dsimp only
            simp only [Option.some.injEq, Prod.mk.injEq, RStream.mk.injEq, true_and]
            exact ⟨rfl, by omega⟩

/-- C8: for well-formed library trees, the encoder refuses to serialize
(`writeNode` is `none`) exactly when some non-folder leaf carries a nested
file with `type_sign == none` (`hasCorrupt`), and on the serialized bytes of
such a tree the node reader throws (`none`) exactly under the same
condition — otherwise both succeed. -/
theorem c8_corrupt_library {β : Type} (sigOf : β → Nat) (R : Registry β)
    (n : LibNode β) (hwf : wfNode n = true) :
    (writeNode sigOf R n = none ↔ hasCorrupt n = true) ∧
    (∀ pre post : List Nat, ∀ fuel : Nat, nodeSize n ≤ fuel →
      (readNodeF R fuel ⟨pre ++ writeNodeU sigOf R n ++ post, pre.length⟩ = none ↔
        hasCorrupt n = true)) := by
  constructor
  · exact (writeNode_none_iff_size sigOf R (nodeSize n)).1 n le_rfl
  · intro pre post fuel hfuel
    rw [(readNodeF_writeNodeU_size sigOf R (nodeSize n)).1 n le_rfl hwf pre post fuel hfuel]
    by_cases hc : hasCorrupt n = true
    · simp [hc]
    · simp [hc]

def c8sig : Nat → Nat := fun _ => 0

def c8reg : Registry Nat := fun _ => none

/-- A single non-folder leaf whose nested file has `type_sign = 0`. -/
def c8node : LibNode Nat := .node [65] false [] ⟨⟨0, 0, 0, 0, false⟩, [], 0⟩

set_option maxRecDepth 10000 in
/-- Witness for C8 at the corrupt leaf: both the encoder refusal and the
decoder throw hold (and `hasCorrupt` is `true` there). -/
theorem c8_corrupt_library_witness :
    (writeNode c8sig c8reg c8node = none ↔ hasCorrupt c8node = true) ∧
    (readNodeF c8reg 1 ⟨([] : List Nat) ++ writeNodeU c8sig c8reg c8node ++ [], 0⟩ = none ↔
      hasCorrupt c8node = true) :=
  ⟨(c8_corrupt_library c8sig c8reg c8node (by decide)).1,
    (c8_corrupt_library c8sig c8reg c8node (by decide)).2 [] [] 1 (by decide)⟩

/-! ## C6: the barycentric bit-pack and its inverse

The packed words are characterized through an MSB-first bit stream: bit
`3*i + r` of the stream is bit `2 - r` of the `i`-th 3-bit pattern, and word
`w` holds stream bits `[64*w, 64*w + 64)`, most significant first. -/

/-- Bit `j` of the concatenated MSB-first 3-bit patterns (`false` past the
end). -/
def streamBit (ps : List Nat) (j : Nat) : Bool :=
  (ps.getD (j / 3) 0).testBit (2 - j % 3)

/-- The value of stream bits `[j, j + len)` as a `len`-bit number, most
significant bit first. -/
def bitsVal (ps : List Nat) : Nat → Nat → Nat
  | _, 0 => 0
  | j, len + 1 => (if streamBit ps j then 1 else 0) * 2 ^ len + bitsVal ps (j + 1) len

theorem bitsVal_lt (ps : List Nat) (len : Nat) : ∀ j, bitsVal ps j len < 2 ^ len := by
  induction len with
  | zero => intro j; simp [bitsVal]
  | succ k ih =>
    intro j
    have h := ih (j + 1)
    rw [bitsVal]
    have hb : (if streamBit ps j then 1 else 0) ≤ 1 := by
      rcases streamBit ps j with _ | _ <;> simp
    have h2 : 2 ^ (k + 1) = 2 ^ k + 2 ^ k := by rw [pow_succ]; omega
    have h3 : (if streamBit ps j then 1 else 0) * 2 ^ k ≤ 2 ^ k :=
      Nat.le_trans (Nat.mul_le_mul_right _ hb) (by omega)
    omega

theorem bitsVal_split (ps : List Nat) (a : Nat) :
    ∀ b j, bitsVal ps j (a + b) = bitsVal ps j a * 2 ^ b + bitsVal ps (j + a) b := by
  induction a with
  | zero => intro b j; simp [bitsVal]
  | succ k ih =>
    intro b j
    rw [show k + 1 + b = (k + b) + 1 from by omega]
    rw [bitsVal, bitsVal, ih b (j + 1)]
    rw [show j + (k + 1) = j + 1 + k from by omega, pow_add]
    ring

theorem streamBit_zero (ps : List Nat) (j : Nat) (h : 3 * ps.length ≤ j) :
    streamBit ps j = false := by
  rw [streamBit, List.getD_eq_default]
  · exact Nat.zero_testBit _
  · omega

theorem bitsVal_zero (ps : List Nat) (len : Nat) :
    ∀ j, 3 * ps.length ≤ j → bitsVal ps j len = 0 := by
  induction len with
  | zero => intro j _; rfl
  | succ k ih =>
    intro j hj
    rw [bitsVal, streamBit_zero ps j hj, ih (j + 1) (by omega)]
    simp

/-- Once the data is exhausted inside a word, the partial word already holds
the full 64-bit spec value. -/
theorem bitsVal_ext (ps : List Nat) (j o : Nat) (ho : o ≤ 64)
    (h : 3 * ps.length ≤ j + o) :
    bitsVal ps j o * 2 ^ (64 - o) = bitsVal ps j 64 := by
  rw [show (64 : Nat) = o + (64 - o) from by omega, bitsVal_split,
    bitsVal_zero ps (64 - o) (j + o) h]
  rw [show o + (64 - o) - o = 64 - o from by omega]
  omega

theorem ite_testBit (p k : Nat) :
    (if p.testBit k then 1 else 0) = p / 2 ^ k % 2 := by
  rw [Nat.testBit_to_div_mod]
  rcases Nat.mod_two_eq_zero_or_one (p / 2 ^ k) with h | h <;> simp [h]

theorem streamBit_pat (ps : List Nat) (i r : Nat) (hr : r < 3) :
    streamBit ps (3 * i + r) = (ps.getD i 0).testBit (2 - r) := by
  rw [streamBit, show (3 * i + r) / 3 = i from by omega,
    show (3 * i + r) % 3 = r from by omega]

theorem bitsVal_succ (ps : List Nat) (j len : Nat) :
    bitsVal ps j (len + 1) =
      (if streamBit ps j then 1 else 0) * 2 ^ len + bitsVal ps (j + 1) len := rfl

/-- A pattern aligned at stream position `3*i` reads back as itself. -/
theorem bitsVal_pat (ps : List Nat) (i : Nat) (hp : ps.getD i 0 < 8) :
    bitsVal ps (3 * i) 3 = ps.getD i 0 := by
  have e0 := streamBit_pat ps i 0 (by norm_num)
  have e1 := streamBit_pat ps i 1 (by norm_num)
  have e2 := streamBit_pat ps i 2 (by norm_num)
  simp only [Nat.add_zero] at e0
  rw [bitsVal_succ ps (3 * i) 2, bitsVal_succ ps (3 * i + 1) 1,
    show 3 * i + 1 + 1 = 3 * i + 2 from by omega, bitsVal_succ ps (3 * i + 2) 0]
  rw [e0, e1, e2]
  rw [ite_testBit, ite_testBit, ite_testBit]
  rw [show bitsVal ps (3 * i + 2 + 1) 0 = 0 from rfl]
  revert hp
  generalize ps.getD i 0 = p
  intro hp
  norm_num
  omega

/-- The first `o` bits of a word that starts `3 - o` bits into pattern `i`
are the low `o` bits of that pattern. -/
theorem bitsVal_carry (ps : List Nat) (i o j : Nat) (ho1 : 1 ≤ o) (ho2 : o ≤ 2)
    (h3 : 3 * i + 3 = j + o) (hp : ps.getD i 0 < 8) :
    bitsVal ps j o = ps.getD i 0 % 2 ^ o := by
  interval_cases o
  · have hj : j = 3 * i + 2 := by omega
    subst hj
    rw [bitsVal_succ ps (3 * i + 2) 0, streamBit_pat ps i 2 (by norm_num), ite_testBit]
    rw [show bitsVal ps (3 * i + 2 + 1) 0 = 0 from rfl]
    revert hp
    generalize ps.getD i 0 = p
    intro hp
    norm_num
    try omega
  · have hj : j = 3 * i + 1 := by omega
    subst hj
    rw [bitsVal_succ ps (3 * i + 1) 1, show 3 * i + 1 + 1 = 3 * i + 2 from by omega,
      bitsVal_succ ps (3 * i + 2) 0, streamBit_pat ps i 1 (by norm_num),
      streamBit_pat ps i 2 (by norm_num), ite_testBit, ite_testBit]
    rw [show bitsVal ps (3 * i + 2 + 1) 0 = 0 from rfl]
    revert hp
    generalize ps.getD i 0 = p
    intro hp
    norm_num
    try omega

/-- The first `3 - off` bits of pattern `i` (MSB-first) are `p >>> off`. -/
theorem bitsVal_tail (ps : List Nat) (i off : Nat) (hoff : off ≤ 2)
    (hp : ps.getD i 0 < 8) :
    bitsVal ps (3 * i) (3 - off) = ps.getD i 0 >>> off := by
  have e0 := streamBit_pat ps i 0 (by norm_num)
  have e1 := streamBit_pat ps i 1 (by norm_num)
  simp only [Nat.add_zero] at e0
  rw [Nat.shiftRight_eq_div_pow]
  interval_cases off
  · rw [show (3 : Nat) - 0 = 3 from rfl]
    rw [bitsVal_pat ps i hp]
    norm_num
  · rw [show (3 : Nat) - 1 = 1 + 1 from rfl, bitsVal_succ ps (3 * i) 1,
      bitsVal_succ ps (3 * i + 1) 0, e0, e1, ite_testBit, ite_testBit]
    rw [show bitsVal ps (3 * i + 1 + 1) 0 = 0 from rfl]
    revert hp
    generalize ps.getD i 0 = p
    intro hp
    norm_num
    try omega
  · rw [show (3 : Nat) - 2 = 0 + 1 from rfl, bitsVal_succ ps (3 * i) 0, e0, ite_testBit]
    rw [show bitsVal ps (3 * i + 1) 0 = 0 from rfl]
    revert hp
    generalize ps.getD i 0 = p
    intro hp
    norm_num
    try omega

/-- Shifting a full word right by `64 - t` keeps its top `t` bits. -/
theorem bitsVal64_shift (ps : List Nat) (j t : Nat) (ht : t ≤ 64) :
    bitsVal ps j 64 >>> (64 - t) = bitsVal ps j t := by
  rw [show (64 : Nat) = t + (64 - t) from by omega, bitsVal_split,
    Nat.shiftRight_eq_div_pow]
  rw [show t + (64 - t) - t = 64 - t from by omega]
  rw [Nat.mul_comm (bitsVal ps j t) (2 ^ (64 - t))]
  rw [Nat.mul_add_div (Nat.pos_pow_of_pos _ (by norm_num))]
  rw [Nat.div_eq_of_lt (bitsVal_lt ps (64 - t) (j + t))]
  omega

/-- Taking a full word mod `2^t` keeps its bottom `t` bits. -/
theorem bitsVal64_low (ps : List Nat) (j t : Nat) (ht : t ≤ 64) :
    bitsVal ps j 64 % 2 ^ t = bitsVal ps (j + (64 - t)) t := by
  rw [show (64 : Nat) = (64 - t) + t from by omega, bitsVal_split]
  rw [show 64 - t + t - t = 64 - t from by omega]
  rw [Nat.mul_comm (bitsVal ps j (64 - t)) (2 ^ t)]
  rw [Nat.mul_add_mod, Nat.mod_eq_of_lt (bitsVal_lt ps t (j + (64 - t)))]

/-- `decB` only looks at the low three bits of its argument. -/
theorem decB_dep (w : Nat) : decB w = decB (w % 8) := by
  have e1 : ((w % 256) >>> 2) % 2 = (((w % 8) % 256) >>> 2) % 2 := by
    simp only [Nat.shiftRight_eq_div_pow]
    norm_num
    try omega
  have e2 : ((w % 256) >>> 1) % 2 = (((w % 8) % 256) >>> 1) % 2 := by
    simp only [Nat.shiftRight_eq_div_pow]
    norm_num
    try omega
  have e3 : (w % 256) % 2 = ((w % 8) % 256) % 2 := by omega
  simp only [decB]
  rw [e1, e2, e3]

set_option maxRecDepth 4000 in
/-- Re-encoding a decoded 3-bit pattern gives it back. -/
theorem encB_decB (p : Nat) (hp : p < 8) : encB (decB p) = p := by
  interval_cases p <;> decide

theorem getD_map_lt {α γ : Type} (f : α → γ) (l : List α) (i : Nat) (d : γ) (d' : α)
    (h : i < l.length) : (l.map f).getD i d = f (l.getD i d') := by
  rw [List.getD_eq_getElem?_getD, List.getD_eq_getElem?_getD, List.getElem?_map]
  rw [List.getElem?_eq_getElem h]
  rfl

theorem getD_mem {l : List Nat} {i : Nat} (h : i < l.length) : l.getD i 0 ∈ l := by
  rw [List.getD_eq_getElem?_getD, List.getElem?_eq_getElem h]
  exact List.getElem_mem h

/-- The words list during `pack`: finished words hold their spec value,
word `w` holds the partial value `v`, later words are still zero. -/
def wordsShape (ps : List Nat) (m w v : Nat) : List Nat :=
  (List.range m).map fun k => if k < w then bitsVal ps (64 * k) 64 else if k = w then v else 0

theorem rangeMap_getD (f : Nat → Nat) (m k : Nat) :
    ((List.range m).map f).getD k 0 = if k < m then f k else 0 := by
  by_cases h : k < m
  · rw [if_pos h]
    rw [List.getD_eq_getElem?_getD, List.getElem?_map, List.getElem?_range h]
    rfl
  · rw [if_neg h]
    rw [List.getD_eq_default]
    simp only [List.length_map, List.length_range]
    omega

theorem rangeMap_set (f : Nat → Nat) (m k : Nat) (v : Nat) :
    ((List.range m).map f).set k v =
      (List.range m).map fun j => if j = k then v else f j := by
  apply List.ext_getElem
  · simp
  · intro i h1 h2
    simp only [List.length_set, List.length_map, List.length_range] at h1 h2
    simp only [List.getElem_set, List.getElem_map, List.getElem_range]
    by_cases h : k = i
    · subst h; simp
    · rw [if_neg h, if_neg (fun hh => h hh.symm)]

theorem orWord_wordsShape (ps : List Nat) (m w v x : Nat) (hw : w < m) :
    orWord (wordsShape ps m w v) w x = wordsShape ps m w (v ||| x) := by
  rw [orWord, wordsShape, rangeMap_getD, if_pos hw, if_neg (lt_irrefl w), if_pos rfl]
  rw [rangeMap_set]
  apply List.map_congr_left
  intro k _
  by_cases h : k = w
  · subst h
    rw [if_pos rfl, if_neg (lt_irrefl k), if_pos rfl]
  · rw [if_neg h, if_neg h, if_neg h]

theorem wordsShape_roll (ps : List Nat) (m w : Nat) :
    wordsShape ps m w (bitsVal ps (64 * w) 64) = wordsShape ps m (w + 1) 0 := by
  apply List.map_congr_left
  intro k _
  by_cases h1 : k < w
  · rw [if_pos h1, if_pos (show k < w + 1 from by omega)]
  · by_cases h2 : k = w
    · subst h2
      rw [if_neg h1, if_pos rfl, if_pos (show k < k + 1 from by omega)]
    · rw [if_neg h1, if_neg h2, if_neg (show ¬k < w + 1 from by omega), ite_self]

theorem wordsShape_done (ps : List Nat) (m w v : Nat) (h : m ≤ w) :
    wordsShape ps m w v = (List.range m).map fun k => bitsVal ps (64 * k) 64 := by
  apply List.map_congr_left
  intro k hk
  rw [List.mem_range] at hk
  rw [if_pos (show k < w from by omega)]

theorem wordsShape_init (ps : List Nat) (m : Nat) :
    wordsShape ps m 0 0 = List.replicate m 0 := by
  rw [show List.replicate m 0 = (List.range m).map fun _ => 0 from by
    apply List.ext_getElem
    · simp
    · intro i h1 h2
      simp]
  apply List.map_congr_left
  intro k _
  by_cases h1 : k < 0
  · omega
  · by_cases h2 : k = 0 <;> simp [h1, h2]

/-- The output list during `unpack`: decoded prefix, untouched zero suffix. -/
def outShape (ps : List Nat) (i : Nat) : List Vec3 :=
  (ps.take i).map decB ++ List.replicate (ps.length - i) zeroV3

theorem set_append_cons {α : Type} (xs ys : List α) (b a : α) :
    (xs ++ b :: ys).set xs.length a = xs ++ a :: ys := by
  induction xs with
  | nil => rfl
  | cons x xs ih => simp [List.set, ih]

theorem set_append_cons_at {α : Type} (xs ys : List α) (b a : α) (i : Nat)
    (h : xs.length = i) : (xs ++ b :: ys).set i a = xs ++ a :: ys :=
  h ▸ set_append_cons xs ys b a

theorem outShape_set (ps : List Nat) (i : Nat) (hi : i < ps.length) :
    (outShape ps i).set i (decB (ps.getD i 0)) = outShape ps (i + 1) := by
  have hlen : ((ps.take i).map decB).length = i := by
    simp only [List.length_map, List.length_take]
    omega
  have hrep : List.replicate (ps.length - i) zeroV3 =
      zeroV3 :: List.replicate (ps.length - i - 1) zeroV3 := by
    rw [show ps.length - i = (ps.length - i - 1) + 1 from by omega]
    rfl
  rw [outShape, hrep, set_append_cons_at _ _ _ _ _ hlen]
  rw [outShape, show ps.take (i + 1) = ps.take i ++ [ps.getD i 0] from by
    rw [List.take_succ, List.getElem?_eq_getElem hi, List.getD_eq_getElem?_getD,
      List.getElem?_eq_getElem hi]
    rfl]
  rw [List.map_append]
  rw [List.append_assoc]
  rw [show ps.length - (i + 1) = ps.length - i - 1 from by omega]
  rfl

theorem outShape_full (ps : List Nat) : outShape ps ps.length = ps.map decB := by
  rw [outShape, Nat.sub_self, List.take_length]
  simp

/-- A pattern shifted to the top of a word keeps its low `o` bits. -/
theorem shl_top_mod (p o : Nat) (ho : o ≤ 64) :
    (p <<< (64 - o)) % 2 ^ 64 = p % 2 ^ o * 2 ^ (64 - o) := by
  rw [Nat.shiftLeft_eq]
  rw [show (2 : Nat) ^ 64 = 2 ^ o * 2 ^ (64 - o) from by rw [← pow_add]; congr 1; omega]
  exact Nat.mul_mod_mul_right _ _ _

theorem encB_zeroV3 : encB zeroV3 = 0 := by decide

theorem bary_encB (ps : List Nat) (i : Nat) (hp : ∀ p ∈ ps, p < 8)
    (hi : i < ps.length) :
    encB (((ps.map fun p => (⟨zeroV3, decB p⟩ : BaryV)).getD i defaultBary).barycentric) =
      ps.getD i 0 := by
  rw [getD_map_lt _ _ _ _ 0 hi]
  exact encB_decB _ (hp _ (getD_mem hi))

theorem packInner_stuck {β : Type} (b : List BaryV) (fuel : Nat) (st : PackSt)
    (h : ¬(st.offset < 61 ∧ st.i < b.length)) : packInner b fuel st = st := by
  cases fuel with
  | zero => rfl
  | succ f => rw [packInner, if_neg h]

/-- Running the inner `pack` loop from an aligned state: it keeps filling
3-bit groups until the word has at most 3 bits left or data runs out. -/
theorem packInner_run (ps : List Nat) (hp : ∀ p ∈ ps, p < 8) (m : Nat) :
    ∀ fuel w o i,
      3 * i = 64 * w + o → o ≤ 63 → i ≤ ps.length → ps.length - i ≤ fuel → w < m →
      ∃ o2 i2,
        packInner (ps.map fun p => (⟨zeroV3, decB p⟩ : BaryV)) fuel
            ⟨wordsShape ps m w (bitsVal ps (64 * w) o * 2 ^ (64 - o)), w, o, i⟩ =
          ⟨wordsShape ps m w (bitsVal ps (64 * w) o2 * 2 ^ (64 - o2)), w, o2, i2⟩ ∧
        3 * i2 = 64 * w + o2 ∧ o ≤ o2 ∧ o2 ≤ 63 ∧ i ≤ i2 ∧ i2 ≤ ps.length ∧
        (61 ≤ o2 ∨ i2 = ps.length) := by
  intro fuel
  induction fuel with
  | zero =>
    intro w o i h3 ho hi hfuel hw
    exact ⟨o, i, rfl, h3, le_rfl, ho, le_rfl, hi, Or.inr (by omega)⟩
  | succ f ih =>
    intro w o i h3 ho hi hfuel hw
    by_cases hc : o < 61 ∧ i < ps.length
    · obtain ⟨ho61, hilt⟩ := hc
      have hplt : ps.getD i 0 < 8 := hp _ (getD_mem hilt)
      rw [packInner]
      dsimp only
      simp only [List.length_map]
      rw [if_pos (⟨ho61, hilt⟩ : o < 61 ∧ i < ps.length)]
      rw [bary_encB ps i hp hilt]
      have hb8 : ps.getD i 0 * 2 ^ (61 - o) < 2 ^ (64 - o) := by
        calc ps.getD i 0 * 2 ^ (61 - o) < 8 * 2 ^ (61 - o) :=
              (Nat.mul_lt_mul_right (Nat.pos_pow_of_pos _ (by norm_num))).mpr hplt
          _ = 2 ^ (64 - o) := by
              rw [show (8 : Nat) = 2 ^ 3 from rfl, ← pow_add]
              congr 1
              omega
      have hx : (ps.getD i 0 <<< (61 - o)) % 2 ^ 64 = ps.getD i 0 * 2 ^ (61 - o) := by
        rw [Nat.shiftLeft_eq]
        exact Nat.mod_eq_of_lt (lt_of_lt_of_le hb8 (Nat.pow_le_pow_right (by norm_num) (by omega)))
      rw [hx]
      rw [orWord_wordsShape ps m w _ _ hw]
      have hor : bitsVal ps (64 * w) o * 2 ^ (64 - o) ||| ps.getD i 0 * 2 ^ (61 - o) =
          bitsVal ps (64 * w) (o + 3) * 2 ^ (64 - (o + 3)) := by
        rw [Nat.mul_comm (bitsVal ps (64 * w) o) (2 ^ (64 - o))]
        rw [lor_pow_mul_add _ _ _ hb8]
        rw [bitsVal_split ps o 3 (64 * w)]
        rw [show 64 * w + o = 3 * i from by omega]
        rw [bitsVal_pat ps i hplt]
        rw [show 64 - (o + 3) = 61 - o from by omega]
        rw [show (2 : Nat) ^ (64 - o) = 2 ^ 3 * 2 ^ (61 - o) from by
          rw [← pow_add]; congr 1; omega]
        ring
      rw [hor]
      obtain ⟨o2, i2, heq, h3x, hlex, ho2, hi2a, hi2b, hexit⟩ :=
        ih w (o + 3) (i + 1) (by omega) (by omega) (by omega) (by omega) hw
      exact ⟨o2, i2, heq, h3x, by omega, ho2, by omega, hi2b, hexit⟩
    · rw [packInner]
      dsimp only
      simp only [List.length_map]
      rw [if_neg hc]
      exact ⟨o, i, rfl, h3, le_rfl, ho, le_rfl, hi, by omega⟩

/-- One outer `pack` iteration, from a fresh word: the carry bits, the inner
loop, and the straddle write, together fill word `w` with its spec value and
re-establish the entry invariant at word `w + 1`. -/
theorem packStep_run (ps : List Nat) (hp : ∀ p ∈ ps, p < 8) (m w o i : Nat)
    (hw : w < m)
    (hentry : (o = 0 ∧ 3 * i = 64 * w ∧ i ≤ ps.length) ∨
      ((1 ≤ o ∧ o ≤ 2) ∧ 3 * i + 3 = 64 * w + o ∧ i < ps.length)) :
    ∃ o2 i2,
      packStep (ps.map fun p => (⟨zeroV3, decB p⟩ : BaryV)) ⟨wordsShape ps m w 0, w, o, i⟩ =
        ⟨wordsShape ps m (w + 1) 0, w, o2, i2⟩ ∧
      ((o2 = 0 ∧ 3 * i2 = 64 * (w + 1) ∧ i2 ≤ ps.length) ∨
        ((1 ≤ o2 ∧ o2 ≤ 2) ∧ 3 * i2 + 3 = 64 * (w + 1) + o2 ∧ i2 < ps.length) ∨
        (ps.length ≤ i2 ∧ 3 * ps.length ≤ 64 * (w + 1))) := by
  have hstart : ∃ oa ia,
      (let st0 : PackSt := ⟨wordsShape ps m w 0, w, o, i⟩
        if st0.offset ≠ 0 then
          { st0 with
            words := orWord st0.words st0.bid
              ((encB (((ps.map fun p => (⟨zeroV3, decB p⟩ : BaryV)).getD st0.i
                  defaultBary).barycentric) <<< (64 - st0.offset)) % 2 ^ 64)
            i := st0.i + 1 }
        else st0) =
        ⟨wordsShape ps m w (bitsVal ps (64 * w) oa * 2 ^ (64 - oa)), w, oa, ia⟩ ∧
      3 * ia = 64 * w + oa ∧ oa ≤ 63 ∧ ia ≤ ps.length := by
    rcases hentry with ⟨ho0, h3, hi⟩ | ⟨⟨ho1, ho2⟩, h3, hi⟩
    · refine ⟨0, i, ?_, by omega, by omega, hi⟩
      subst ho0
      rw [if_neg (show ¬(⟨wordsShape ps m w 0, w, 0, i⟩ : PackSt).offset ≠ 0 from by
        simp)]
      rw [show bitsVal ps (64 * w) 0 * 2 ^ (64 - 0) = 0 from by
        rw [show bitsVal ps (64 * w) 0 = 0 from rfl, Nat.zero_mul]]
    · have hplt : ps.getD i 0 < 8 := hp _ (getD_mem hi)
      refine ⟨o, i + 1, ?_, by omega, by omega, by omega⟩
      rw [if_pos (show (⟨wordsShape ps m w 0, w, o, i⟩ : PackSt).offset ≠ 0 from by
        dsimp only; omega)]
      dsimp only
      rw [bary_encB ps i hp hi, shl_top_mod _ _ (by omega)]
      rw [bitsVal_carry ps i o (64 * w) ho1 ho2 (by omega) hplt] at *
      rw [show ps.getD i 0 % 2 ^ o = bitsVal ps (64 * w) o from
        (bitsVal_carry ps i o (64 * w) ho1 ho2 (by omega) hplt).symm]
      rw [orWord_wordsShape ps m w _ _ hw, Nat.zero_or]
  obtain ⟨oa, ia, hfirst, h3a, hoa, hia⟩ := hstart
  rw [packStep]
  dsimp only
  rw [hfirst]
  dsimp only
  simp only [List.length_map]
  obtain ⟨o2, i2, heq, h3x, _, ho2x, _, hi2b, hexit⟩ :=
    packInner_run ps hp m (ps.length - ia) w oa ia h3a hoa hia le_rfl hw
  rw [heq]
  by_cases hi2 : i2 < ps.length
  · have ho61 : 61 ≤ o2 := by omega
    have hp2 : ps.getD i2 0 < 8 := hp _ (getD_mem hi2)
    rw [if_pos (⟨hi2, by omega⟩ : i2 < ps.length ∧ o2 < 64)]
    dsimp only
    rw [bary_encB ps i2 hp hi2]
    have hoff : 3 - (64 - o2) = o2 - 61 := by omega
    rw [hoff]
    have hxlt : ps.getD i2 0 >>> (o2 - 61) < 2 ^ (64 - o2) := by
      rw [Nat.shiftRight_eq_div_pow]
      rw [Nat.div_lt_iff_lt_mul (Nat.pos_pow_of_pos _ (by norm_num))]
      calc ps.getD i2 0 < 8 := hp2
        _ ≤ 2 ^ (64 - o2) * 2 ^ (o2 - 61) := by
          rw [← pow_add, show 64 - o2 + (o2 - 61) = 3 from by omega]
          norm_num
    rw [orWord_wordsShape ps m w _ _ hw]
    rw [show bitsVal ps (64 * w) o2 * 2 ^ (64 - o2) ||| ps.getD i2 0 >>> (o2 - 61) =
        bitsVal ps (64 * w) 64 from by
      rw [Nat.mul_comm (bitsVal ps (64 * w) o2) (2 ^ (64 - o2))]
      rw [lor_pow_mul_add _ _ _ hxlt]
      have hsplit : bitsVal ps (64 * w) 64 =
          bitsVal ps (64 * w) o2 * 2 ^ (64 - o2) + bitsVal ps (64 * w + o2) (64 - o2) := by
        have h := bitsVal_split ps o2 (64 - o2) (64 * w)
        rw [show o2 + (64 - o2) = 64 from by omega] at h
        exact h
      have htail : bitsVal ps (64 * w + o2) (64 - o2) = ps.getD i2 0 >>> (o2 - 61) := by
        rw [show 64 * w + o2 = 3 * i2 from by omega,
          show (64 : Nat) - o2 = 3 - (o2 - 61) from by omega]
        exact bitsVal_tail ps i2 (o2 - 61) (by omega) hp2
      rw [hsplit, htail]
      ring]
    rw [wordsShape_roll]
    by_cases h61 : o2 = 61
    · rw [if_pos (show o2 - 61 = 0 from by omega)]
      exact ⟨o2 - 61, i2 + 1, rfl, Or.inl ⟨by omega, by omega, by omega⟩⟩
    · rw [if_neg (show ¬o2 - 61 = 0 from by omega)]
      exact ⟨o2 - 61, i2, rfl, Or.inr (Or.inl ⟨⟨by omega, by omega⟩, by omega, by omega⟩)⟩
  · rw [if_neg (show ¬(i2 < ps.length ∧ o2 < 64) from by omega)]
    have hn : i2 = ps.length := by omega
    rw [show bitsVal ps (64 * w) o2 * 2 ^ (64 - o2) = bitsVal ps (64 * w) 64 from
      bitsVal_ext ps (64 * w) o2 (by omega) (by omega)]
    rw [wordsShape_roll]
    exact ⟨o2, i2, rfl, Or.inr (Or.inr ⟨by omega, by omega⟩)⟩

/-- The outer `pack` loop: from any invariant entry state, with enough fuel,
it fills every remaining word with the spec value. -/
theorem packOuter_run (ps : List Nat) (hp : ∀ p ∈ ps, p < 8) :
    ∀ fuel w o i,
      ((o = 0 ∧ 3 * i = 64 * w ∧ i ≤ ps.length) ∨
        ((1 ≤ o ∧ o ≤ 2) ∧ 3 * i + 3 = 64 * w + o ∧ i < ps.length) ∨
        (ps.length ≤ i ∧ 3 * ps.length ≤ 64 * w)) →
      (3 * ps.length + 63) / 64 - w ≤ fuel →
      (packOuter (ps.map fun p => (⟨zeroV3, decB p⟩ : BaryV)) fuel
          ⟨wordsShape ps ((3 * ps.length + 63) / 64) w 0, w, o, i⟩).words =
        (List.range ((3 * ps.length + 63) / 64)).map fun k => bitsVal ps (64 * k) 64 := by
  intro fuel
  induction fuel with
  | zero =>
    intro w o i _ hfuel
    rw [packOuter]
    rw [wordsShape_done ps _ w 0 (by omega)]
  | succ f ih =>
    intro w o i hentry hfuel
    rw [packOuter]
    dsimp only
    simp only [List.length_map]
    by_cases hw : w < (3 * ps.length + 63) / 64
    · rw [if_pos hw]
      have hnotdone : ¬(ps.length ≤ i ∧ 3 * ps.length ≤ 64 * w) := by
        intro ⟨_, habs⟩
        omega
      have hentry2 : (o = 0 ∧ 3 * i = 64 * w ∧ i ≤ ps.length) ∨
          ((1 ≤ o ∧ o ≤ 2) ∧ 3 * i + 3 = 64 * w + o ∧ i < ps.length) := by
        rcases hentry with h | h | h
        · exact Or.inl h
        · exact Or.inr h
        · exact absurd h hnotdone
      obtain ⟨o2, i2, hstep, hexit⟩ :=
        packStep_run ps hp ((3 * ps.length + 63) / 64) w o i hw hentry2
      rw [hstep]
      dsimp only
      exact ih (w + 1) o2 i2 hexit (by omega)
    · rw [if_neg hw]
      rw [wordsShape_done ps _ w 0 (by omega)]

/-- What `pack` computes on decoded patterns: exactly the spec words. -/
theorem pack_spec (ps : List Nat) (hp : ∀ p ∈ ps, p < 8) :
    pack (ps.map fun p => (⟨zeroV3, decB p⟩ : BaryV)) =
      (List.range ((3 * ps.length + 63) / 64)).map fun k => bitsVal ps (64 * k) 64 := by
  rw [pack]
  simp only [List.length_map]
  rw [← wordsShape_init ps ((3 * ps.length + 63) / 64)]
  exact packOuter_run ps hp ((3 * ps.length + 63) / 64) 0 0 0
    (Or.inl ⟨rfl, by omega, by omega⟩) (by omega)

theorem bitsVal_low_gen (ps : List Nat) (j L t : Nat) (ht : t ≤ L) :
    bitsVal ps j L % 2 ^ t = bitsVal ps (j + (L - t)) t := by
  have h := bitsVal_split ps (L - t) t j
  rw [show L - t + t = L from by omega] at h
  rw [h, Nat.mul_comm (bitsVal ps j (L - t)) (2 ^ t), Nat.mul_add_mod,
    Nat.mod_eq_of_lt (bitsVal_lt ps t (j + (L - t)))]

theorem bitsVal_shift_gen (ps : List Nat) (j L t : Nat) (ht : t ≤ L) :
    bitsVal ps j L >>> (L - t) = bitsVal ps j t := by
  have h := bitsVal_split ps t (L - t) j
  rw [show t + (L - t) = L from by omega] at h
  rw [h, Nat.shiftRight_eq_div_pow]
  rw [Nat.mul_comm (bitsVal ps j t) (2 ^ (L - t))]
  rw [Nat.mul_add_div (Nat.pos_pow_of_pos _ (by norm_num))]
  rw [Nat.div_eq_of_lt (bitsVal_lt ps (L - t) (j + t))]
  omega

theorem src_getD (ps : List Nat) (m k : Nat) (hm : 3 * ps.length ≤ 64 * m) :
    ((List.range m).map fun j => bitsVal ps (64 * j) 64).getD k 0 =
      bitsVal ps (64 * k) 64 := by
  rw [rangeMap_getD]
  by_cases h : k < m
  · rw [if_pos h]
  · rw [if_neg h]
    exact (bitsVal_zero ps 64 (64 * k) (by omega)).symm

theorem unpInner_stuck (src : List Nat) (n fuel : Nat) (st : UnpSt)
    (h : ¬(st.offset < 61 ∧ st.i < n)) : unpInner src n fuel st = st := by
  cases fuel with
  | zero => rfl
  | succ f => rw [unpInner, if_neg h]

/-- Running the inner `unpack` loop: it decodes aligned 3-bit groups until
the word has at most 3 bits left or the output is full. -/
theorem unpInner_run (ps : List Nat) (hp : ∀ p ∈ ps, p < 8) (m : Nat)
    (hm : 3 * ps.length ≤ 64 * m) :
    ∀ fuel w o i,
      3 * i = 64 * w + o → o ≤ 63 → i ≤ ps.length → ps.length - i ≤ fuel →
      ∃ o2 i2,
        unpInner ((List.range m).map fun k => bitsVal ps (64 * k) 64) ps.length fuel
            ⟨outShape ps i, w, o, i⟩ =
          ⟨outShape ps i2, w, o2, i2⟩ ∧
        3 * i2 = 64 * w + o2 ∧ o ≤ o2 ∧ o2 ≤ 63 ∧ i ≤ i2 ∧ i2 ≤ ps.length ∧
        (61 ≤ o2 ∨ i2 = ps.length) := by
  intro fuel
  induction fuel with
  | zero =>
    intro w o i h3 ho hi hfuel
    exact ⟨o, i, rfl, h3, le_rfl, ho, le_rfl, hi, Or.inr (by omega)⟩
  | succ f ih =>
    intro w o i h3 ho hi hfuel
    by_cases hc : o < 61 ∧ i < ps.length
    · obtain ⟨ho61, hilt⟩ := hc
      have hplt : ps.getD i 0 < 8 := hp _ (getD_mem hilt)
      rw [unpInner]
      rw [if_pos (⟨ho61, hilt⟩ : (⟨outShape ps i, w, o, i⟩ : UnpSt).offset < 61 ∧
        (⟨outShape ps i, w, o, i⟩ : UnpSt).i < ps.length)]
      dsimp only
      rw [src_getD ps m w hm]
      rw [show 61 - o = 64 - (o + 3) from by omega]
      rw [bitsVal_shift_gen ps (64 * w) 64 (o + 3) (by omega)]
      rw [decB_dep]
      rw [show bitsVal ps (64 * w) (o + 3) % 8 = ps.getD i 0 from by
        rw [show (8 : Nat) = 2 ^ 3 from rfl]
        rw [bitsVal_low_gen ps (64 * w) (o + 3) 3 (by omega)]
        rw [show 64 * w + (o + 3 - 3) = 3 * i from by omega]
        exact bitsVal_pat ps i hplt]
      rw [outShape_set ps i hilt]
      obtain ⟨o2, i2, heq, h3x, hlex, ho2, hi2a, hi2b, hexit⟩ :=
        ih w (o + 3) (i + 1) (by omega) (by omega) (by omega) (by omega)
      exact ⟨o2, i2, heq, h3x, by omega, ho2, by omega, hi2b, hexit⟩
    · rw [unpInner_stuck _ _ _ _ hc]
      exact ⟨o, i, rfl, h3, le_rfl, ho, le_rfl, hi, by omega⟩

/-- One outer `unpack` iteration: decode what is left of word `w` (including
a possible straddle into word `w + 1`) and move to the next word. -/
theorem unpStep_run (ps : List Nat) (hp : ∀ p ∈ ps, p < 8) (m : Nat)
    (hm : 3 * ps.length ≤ 64 * m) (w o i : Nat)
    (hi : i ≤ ps.length) (hrel : i < ps.length → o ≤ 2 ∧ 3 * i = 64 * w + o) :
    ∃ o2 i2,
      unpStep ((List.range m).map fun k => bitsVal ps (64 * k) 64) ps.length
          ⟨outShape ps i, w, o, i⟩ =
        ⟨outShape ps i2, w + 1, o2, i2⟩ ∧
      i2 ≤ ps.length ∧ (i2 < ps.length → o2 ≤ 2 ∧ 3 * i2 = 64 * (w + 1) + o2) := by
  by_cases hin : i < ps.length
  · obtain ⟨ho2e, h3⟩ := hrel hin
    obtain ⟨o2, i2, heq, h3x, hlex, ho2x, hi2a, hi2b, hexit⟩ :=
      unpInner_run ps hp m hm (ps.length - i) w o i h3 (by omega) hi le_rfl
    rw [unpStep]
    dsimp only
    rw [heq]
    by_cases h2 : i2 < ps.length
    · have ho61 : 61 ≤ o2 := by omega
      have hp2 : ps.getD i2 0 < 8 := hp _ (getD_mem h2)
      rw [if_pos (⟨h2, (by omega : o2 ≠ 64)⟩ :
        (⟨outShape ps i2, w, o2, i2⟩ : UnpSt).i < ps.length ∧
          (⟨outShape ps i2, w, o2, i2⟩ : UnpSt).offset ≠ 64)]
      by_cases h61 : o2 = 61
      · rw [if_pos (show (⟨outShape ps i2, w, o2, i2⟩ : UnpSt).offset = 61 from h61)]
        dsimp only
        rw [src_getD ps m w hm]
        rw [show (0x7 : Nat) = 2 ^ 3 - 1 from rfl, Nat.and_pow_two_sub_one_eq_mod]
        rw [bitsVal_low_gen ps (64 * w) 64 3 (by omega)]
        rw [show 64 * w + (64 - 3) = 3 * i2 from by omega]
        rw [bitsVal_pat ps i2 hp2]
        rw [outShape_set ps i2 h2]
        exact ⟨0, i2 + 1, rfl, by omega, fun _ => ⟨by omega, by omega⟩⟩
      · rw [if_neg (show ¬(⟨outShape ps i2, w, o2, i2⟩ : UnpSt).offset = 61 from h61)]
        dsimp only
        rw [src_getD ps m w hm, src_getD ps m (w + 1) hm]
        rw [show (2 : Nat) ^ (64 - o2) - 1 = 2 ^ (64 - o2) - 1 from rfl,
          Nat.and_pow_two_sub_one_eq_mod]
        rw [bitsVal_low_gen ps (64 * w) 64 (64 - o2) (by omega)]
        rw [show 64 * w + (64 - (64 - o2)) = 64 * w + o2 from by omega]
        have hoff : 3 - (64 - o2) = o2 - 61 := by omega
        rw [hoff]
        have htmplt : bitsVal ps (64 * w + o2) (64 - o2) < 2 ^ (64 - o2) :=
          bitsVal_lt ps (64 - o2) (64 * w + o2)
        have hshl : bitsVal ps (64 * w + o2) (64 - o2) <<< (o2 - 61) % 2 ^ 64 =
            2 ^ (o2 - 61) * bitsVal ps (64 * w + o2) (64 - o2) := by
          rw [Nat.shiftLeft_eq, Nat.mod_eq_of_lt, Nat.mul_comm]
          calc bitsVal ps (64 * w + o2) (64 - o2) * 2 ^ (o2 - 61)
              < 2 ^ (64 - o2) * 2 ^ (o2 - 61) :=
                (Nat.mul_lt_mul_right (Nat.pos_pow_of_pos _ (by norm_num))).mpr htmplt
            _ ≤ 2 ^ 64 := by
                rw [← pow_add]
                exact Nat.pow_le_pow_right (by norm_num) (by omega)
        rw [hshl]
        rw [show (64 : Nat) - (o2 - 61) = 64 - (o2 - 61) from rfl]
        rw [bitsVal_shift_gen ps (64 * (w + 1)) 64 (o2 - 61) (by omega)]
        rw [lor_pow_mul_add _ _ _ (bitsVal_lt ps (o2 - 61) (64 * (w + 1)))]
        rw [show 2 ^ (o2 - 61) * bitsVal ps (64 * w + o2) (64 - o2) +
              bitsVal ps (64 * (w + 1)) (o2 - 61) = ps.getD i2 0 from by
          have hs := bitsVal_split ps (64 - o2) (o2 - 61) (64 * w + o2)
          rw [show 64 * w + o2 + (64 - o2) = 64 * (w + 1) from by omega] at hs
          rw [show (64 : Nat) - o2 + (o2 - 61) = 3 from by omega] at hs
          rw [show 64 * w + o2 = 3 * i2 from by omega] at hs
          rw [bitsVal_pat ps i2 hp2] at hs
          rw [show 3 * i2 = 64 * w + o2 from by omega] at hs
          rw [hs]
          ring]
        rw [outShape_set ps i2 h2]
        exact ⟨o2 - 61, i2 + 1, rfl, by omega, fun _ => ⟨by omega, by omega⟩⟩
    · rw [if_neg (show ¬((⟨outShape ps i2, w, o2, i2⟩ : UnpSt).i < ps.length ∧
        (⟨outShape ps i2, w, o2, i2⟩ : UnpSt).offset ≠ 64) from by
          dsimp only; omega)]
      exact ⟨o2, i2, rfl, hi2b, fun hlt => absurd hlt h2⟩
  · rw [unpStep]
    dsimp only
    rw [unpInner_stuck _ _ _ _ (by dsimp only; omega)]
    rw [if_neg (show ¬((⟨outShape ps i, w, o, i⟩ : UnpSt).i < ps.length ∧
      (⟨outShape ps i, w, o, i⟩ : UnpSt).offset ≠ 64) from by
        dsimp only; omega)]
    exact ⟨o, i, rfl, hi, fun hlt => absurd hlt hin⟩

/-- The outer `unpack` loop fills the whole output with the decoded
patterns. -/
theorem unpOuter_run (ps : List Nat) (hp : ∀ p ∈ ps, p < 8) (m : Nat)
    (hm : 3 * ps.length ≤ 64 * m) :
    ∀ fuel w o i,
      i ≤ ps.length → (i < ps.length → o ≤ 2 ∧ 3 * i = 64 * w + o) →
      ps.length - w ≤ fuel →
      (unpOuter ((List.range m).map fun k => bitsVal ps (64 * k) 64) ps.length fuel
          ⟨outShape ps i, w, o, i⟩).out = ps.map decB := by
  intro fuel
  induction fuel with
  | zero =>
    intro w o i hi hrel hfuel
    have hieq : i = ps.length := by
      by_cases hlt : i < ps.length
      · obtain ⟨_, h3⟩ := hrel hlt
        omega
      · omega
    subst hieq
    rw [unpOuter]
    rw [outShape_full]
  | succ f ih =>
    intro w o i hi hrel hfuel
    rw [unpOuter]
    by_cases hw : w < ps.length
    · rw [if_pos (show (⟨outShape ps i, w, o, i⟩ : UnpSt).bid < ps.length from hw)]
      obtain ⟨o2, i2, hstep, hi2, hrel2⟩ := unpStep_run ps hp m hm w o i hi hrel
      rw [hstep]
      exact ih (w + 1) o2 i2 hi2 hrel2 (by omega)
    · rw [if_neg (show ¬(⟨outShape ps i, w, o, i⟩ : UnpSt).bid < ps.length from hw)]
      have hieq : i = ps.length := by
        by_cases hlt : i < ps.length
        · obtain ⟨_, h3⟩ := hrel hlt
          omega
        · omega
      subst hieq
      rw [outShape_full]

/-- What `unpack` computes on the spec words: the decoded patterns. -/
theorem unpack_spec (ps : List Nat) (hp : ∀ p ∈ ps, p < 8) :
    unpack ((List.range ((3 * ps.length + 63) / 64)).map fun k => bitsVal ps (64 * k) 64)
      ps.length = ps.map decB := by
  rw [unpack]
  rw [show List.replicate ps.length zeroV3 = outShape ps 0 from rfl]
  exact unpOuter_run ps hp ((3 * ps.length + 63) / 64) (by omega) ps.length 0 0 0
    (by omega) (fun _ => ⟨by omega, by omega⟩) (by omega)

/-- C6: for every sequence of 3-bit patterns from `{0..7}` (carried as the
barycentric vectors that decode them), `pack` produces exactly
`ceil(3n/64)` 64-bit words, unpacking those words with length `n` returns
exactly the original patterns, and the packing is injective on such
sequences of equal length (a bijection onto its image). -/
theorem c6_bary_pack_unpack (ps : List Nat) (hp : ∀ p ∈ ps, p < 8) :
    (pack (ps.map fun p => (⟨zeroV3, decB p⟩ : BaryV))).length =
      (3 * ps.length + 63) / 64 ∧
    unpack (pack (ps.map fun p => (⟨zeroV3, decB p⟩ : BaryV))) ps.length =
      ps.map decB ∧
    (∀ qs : List Nat, (∀ q ∈ qs, q < 8) → qs.length = ps.length →
      pack (qs.map fun p => (⟨zeroV3, decB p⟩ : BaryV)) =
        pack (ps.map fun p => (⟨zeroV3, decB p⟩ : BaryV)) → qs = ps) := by
  refine ⟨?_, ?_, ?_⟩
  · rw [pack_spec ps hp]
    simp
  · rw [pack_spec ps hp]
    exact unpack_spec ps hp
  · intro qs hq hlen hpack
    have e1 := unpack_spec qs hq
    have e2 := unpack_spec ps hp
    rw [← pack_spec qs hq] at e1
    rw [← pack_spec ps hp] at e2
    rw [hpack, hlen, e2] at e1
    have hq' : qs.map (encB ∘ decB) = qs := by
      rw [List.map_congr_left
        (fun a ha => show (encB ∘ decB) a = id a from encB_decB a (hq a ha))]
      exact List.map_id qs
    have hp' : ps.map (encB ∘ decB) = ps := by
      rw [List.map_congr_left
        (fun a ha => show (encB ∘ decB) a = id a from encB_decB a (hp a ha))]
      exact List.map_id ps
    have h2 := congrArg (List.map encB) e1
    rw [List.map_map, List.map_map, hq', hp'] at h2
    exact h2.symm

set_option maxRecDepth 4000 in
/-- Witness for C6 at the six patterns `[1, 5, 7, 0, 6, 3]`: one output word
and an exact pattern round-trip. -/
theorem c6_bary_pack_unpack_witness :
    (pack ([1, 5, 7, 0, 6, 3].map fun p => (⟨zeroV3, decB p⟩ : BaryV))).length = 1 ∧
    unpack (pack ([1, 5, 7, 0, 6, 3].map fun p => (⟨zeroV3, decB p⟩ : BaryV))) 6 =
      [1, 5, 7, 0, 6, 3].map decB :=
  ⟨(c6_bary_pack_unpack [1, 5, 7, 0, 6, 3] (by decide)).1,
    (c6_bary_pack_unpack [1, 5, 7, 0, 6, 3] (by decide)).2.1⟩

end Umbf
